import Mathlib

/-!
Verification of the text-to-tree compiler of the vocabulary mind-map
application (`src/VocabularyMindMapApp.tsx`).

The development shallowly embeds the pure core of the application:
`getDepth`, `resolveColor`, `parseText` (directive extraction, the
indentation stack, the label map) and the color-inheritance pass
`applyColor`, together with the id-level content of the `crossLinks`
computation.  Strings are modelled as `List Char` (`String.data`), and
the few JavaScript regular expressions that the source uses are
translated into explicit scanning functions whose behaviour is matched
against the regex semantics case by case (leftmost match, greedy
`[^}]+` capture, optional second backslash, `/i` flag, `/g` flag).

All definitions are executable and reduce by `rfl`/`decide`, so that
theorems about concrete inputs evaluate inside the kernel.
-/

/-- ASCII whitespace as matched by the JavaScript `\s` class and by
`String.prototype.trim` on ASCII input: space, tab, LF, VT, FF, CR. -/
def jsSpace (c : Char) : Bool :=
  c = ' ' || c = '\t' || c = '\n' || c = '\x0b' || c = '\x0c' || c = '\r'

/-- JavaScript `trim`: drop leading and trailing whitespace. -/
def trimChars (s : List Char) : List Char :=
  ((s.dropWhile jsSpace).reverse.dropWhile jsSpace).reverse

/-- ASCII lower-casing of a list of characters (JS `toLowerCase` on the
ASCII inputs the app works with). -/
def toLowerL (s : List Char) : List Char :=
  s.map Char.toLower

/-- Line-ending normalisation, `input.replace(/\r\n?/g, "\n")`:
every CRLF pair and every lone CR becomes a single LF. -/
def normNL : List Char → List Char
  | [] => []
  | '\r' :: '\n' :: t => '\n' :: normNL t
  | '\r' :: t => '\n' :: normNL t
  | c :: t => c :: normNL t

/-- JavaScript `split("\n")`: split at every LF, keeping empty pieces. -/
def splitNL : List Char → List (List Char)
  | [] => [[]]
  | '\n' :: t => [] :: splitNL t
  | c :: t =>
    match splitNL t with
    | [] => [[c]]
    | l :: ls => (c :: l) :: ls

/-- Indentation scanner `getDepth` (source lines 76–96): a leading TAB
adds one level, a leading pair of spaces adds one level, and scanning
stops at the first character that is neither — in particular at a
single space that is not followed by another space.  Returns the depth
together with the unconsumed remainder of the line. -/
def getDepthL : List Char → Nat × List Char
  | '\t' :: t => ((getDepthL t).1 + 1, (getDepthL t).2)
  | ' ' :: ' ' :: t => ((getDepthL t).1 + 1, (getDepthL t).2)
  | s => (0, s)

/-- String-level wrapper of `getDepthL`, mirroring the source signature
`getDepth(s: string): { depth, rest }`. -/
def getDepth (s : String) : Nat × String :=
  let (d, r) := getDepthL s.data
  (d, String.mk r)

/-- Hexadecimal digit, as in the character class `[0-9a-fA-F]`. -/
def isHexDigit (c : Char) : Bool :=
  ('0' ≤ c && c ≤ '9') || ('a' ≤ c && c ≤ 'f') || ('A' ≤ c && c ≤ 'F')

/-- The anchored test `/^#([0-9a-fA-F]{3}|[0-9a-fA-F]{6}|[0-9a-fA-F]{8})$/`:
a leading `#` followed by exactly 3, 6 or 8 hex digits and nothing else. -/
def hexShape (s : List Char) : Bool :=
  match s with
  | c :: t =>
    c = '#' && (t.all isHexDigit && (t.length = 3 || t.length = 6 || t.length = 8))
  | [] => false

/-- The fixed preset table `COLOR_PRESETS` (source lines 40–52),
as an association list in source order. -/
def COLOR_PRESETS : List (String × String) :=
  [("red", "#ef4444"), ("blue", "#3b82f6"), ("green", "#22c55e"),
   ("orange", "#f59e0b"), ("purple", "#a78bfa"), ("teal", "#14b8a6"),
   ("pink", "#ec4899"), ("gray", "#6b7280"), ("slate", "#64748b"),
   ("amber", "#f59e0b"), ("lime", "#84cc16")]

/-- The own-property portion of the lookup `COLOR_PRESETS[key]`: the
record literal's eleven declared entries.  JavaScript bracket access on
a plain object also reaches the properties inherited from
`Object.prototype`; `presetLookupFull` below models the access in
full, own entries first. -/
def presetLookup (key : String) : Option String :=
  (COLOR_PRESETS.find? (fun kv => kv.1 = key)).map (fun kv => kv.2)

/-- `resolveColor` (source lines 99–105) restricted to the own preset
entries — the string-typed simplification used inside the parse
pipeline, where a node's color is a `String`.  `undefined` and the
empty string are falsy, so they resolve to `undefined`; otherwise the
argument is trimmed, accepted verbatim when it has the `#`-hex shape,
and otherwise looked up in the preset table after lower-casing.
`resolveColor_projects_full` relates this to the full model
`resolveColorFull`: the two agree except that the full model returns
the truthy inherited `Object.prototype` value where this one returns
`none`. -/
def resolveColor (str : Option String) : Option String :=
  match str with
  | none => none
  | some s =>
    if s.isEmpty then none
    else
      let t := trimChars s.data
      if hexShape t then some (String.mk t)
      else presetLookup (String.mk (toLowerL t))

/-- A value read off the preset object by bracket access: either one of
the record literal's own string entries (or a verbatim hex literal),
or a value inherited from `Object.prototype` — a function or object,
truthy and not a color string — identified by its property name. -/
inductive JsProp where
  | str (v : String)
  | protoObj (name : String)
deriving DecidableEq

/-- The property names a plain object literal inherits from
`Object.prototype`.  Bracket access `COLOR_PRESETS[key]` reaches these
when `key` is not one of the eleven own keys, and each reads to a
truthy non-string value — e.g. `constructor` is the `Object` function
and `__proto__` is `Object.prototype` itself. -/
def OBJECT_PROTO_PROPS : List String :=
  ["constructor", "hasOwnProperty", "isPrototypeOf", "propertyIsEnumerable",
   "toLocaleString", "toString", "valueOf", "__defineGetter__",
   "__defineSetter__", "__lookupGetter__", "__lookupSetter__", "__proto__"]

/-- Full model of the bracket access `COLOR_PRESETS[key]` (source line
103) on the plain object literal `COLOR_PRESETS`: an own property
shadows the prototype chain; failing that, the properties inherited
from `Object.prototype` are found; only then is the result
`undefined`. -/
def presetLookupFull (key : String) : Option JsProp :=
  match presetLookup key with
  | some v => some (JsProp.str v)
  | none => if key ∈ OBJECT_PROTO_PROPS then some (JsProp.protoObj key) else none

/-- `resolveColor` (source lines 99–105) with the property access
modelled in full.  `undefined` and the empty string are falsy and
resolve to `undefined`; otherwise the argument is trimmed, accepted
verbatim when it has the `#`-hex shape, and otherwise read from the
preset object after lower-casing — where the prototype chain makes
the lookup succeed also on the inherited property names, and line
104's `preset ?? undefined` passes any such truthy value through. -/
def resolveColorFull (str : Option String) : Option JsProp :=
  match str with
  | none => none
  | some s =>
    if s.isEmpty then none
    else
      let t := trimChars s.data
      if hexShape t then some (JsProp.str (String.mk t))
      else presetLookupFull (String.mk (toLowerL t))


/-- The parsed node record `RawNode` (source lines 24–37).  `depth` and
`line` are `Int` because the implicit root uses the sentinel value −1.
`children : List RawNode` makes this a nested inductive; recursive
functions over it are given below as mutual definitions so that they
are structurally recursive and reduce inside the kernel. -/
structure RawNode where
  id : String
  depth : Int
  line : Int
  text : String
  jp : Option String
  label : Option String
  color : Option String
  effectiveColor : Option String
  refs : List String
  pos : Option String
  tags : List String
  children : List RawNode

mutual

def decEqRawNode : (a b : RawNode) → Decidable (a = b)
  | ⟨i, d, ln, tx, jp, lb, co, ec, rf, po, tg, ch⟩,
    ⟨i', d', ln', tx', jp', lb', co', ec', rf', po', tg', ch'⟩ =>
    if h : i = i' ∧ d = d' ∧ ln = ln' ∧ tx = tx' ∧ jp = jp' ∧ lb = lb' ∧
           co = co' ∧ ec = ec' ∧ rf = rf' ∧ po = po' ∧ tg = tg' then
      match decEqRawNodeList ch ch' with
      | isTrue hch => isTrue (by
          obtain ⟨h1, h2, h3, h4, h5, h6, h7, h8, h9, h10, h11⟩ := h
          rw [h1, h2, h3, h4, h5, h6, h7, h8, h9, h10, h11, hch])
      | isFalse hch => isFalse (by intro he; cases he; exact hch rfl)
    else
      isFalse (by
        intro he; cases he
        exact h ⟨rfl, rfl, rfl, rfl, rfl, rfl, rfl, rfl, rfl, rfl, rfl⟩)

def decEqRawNodeList : (a b : List RawNode) → Decidable (a = b)
  | [], [] => isTrue rfl
  | [], _ :: _ => isFalse (fun he => List.noConfusion he)
  | _ :: _, [] => isFalse (fun he => List.noConfusion he)
  | a :: as, b :: bs =>
    match decEqRawNode a b with
    | isTrue h1 =>
      match decEqRawNodeList as bs with
      | isTrue h2 => isTrue (by rw [h1, h2])
      | isFalse h2 => isFalse (by intro he; injection he; contradiction)
    | isFalse h1 => isFalse (by intro he; injection he; contradiction)

end

instance : DecidableEq RawNode := decEqRawNode

/-- Case-folding character comparison: with the `/i` flag a pattern
letter matches both cases, without it the match is exact.  Directive
keywords are written in lower case in the source regexes. -/
def charMatches (ci : Bool) (k c : Char) : Bool :=
  if ci then c.toLower = k else c = k

/-- Match the keyword `kw` at the head of `s`; on success return the
rest of `s`. -/
def matchKw (ci : Bool) : List Char → List Char → Option (List Char)
  | [], s => some s
  | _ :: _, [] => none
  | k :: ks, c :: cs => if charMatches ci k c then matchKw ci ks cs else none

/-- Match `kw{payload}` at the head of `s`: the keyword, a literal `{`,
a non-empty greedy run `[^}]+` and the closing `}`.  Returns the
payload and the rest after the `}`. -/
def matchKwBody (ci : Bool) (kw : List Char) (s : List Char) :
    Option (List Char × List Char) :=
  match matchKw ci kw s with
  | none => none
  | some rest =>
    match rest with
    | '{' :: r =>
      let payload := r.takeWhile (fun c => c ≠ '}')
      match r.dropWhile (fun c => c ≠ '}') with
      | '}' :: tail => if payload.isEmpty then none else some (payload, tail)
      | _ => none
    | _ => none

/-- Match one directive occurrence at the head of `s`, per the pattern
`\\\\?kw\{([^}]+)\}`: one mandatory and one optional backslash (the
optional one is taken greedily; since keywords never start with a
backslash no backtracking case remains), then `kw{payload}`. -/
def matchDirAt (ci : Bool) (kw : List Char) : List Char → Option (List Char × List Char)
  | '\\' :: '\\' :: t => matchKwBody ci kw t
  | '\\' :: t => matchKwBody ci kw t
  | _ => none

/-- Leftmost directive match in `s`, as found by `String.match` with a
non-global regex: returns the prefix before the match, the captured
payload, and the suffix after the match. -/
def findDir (ci : Bool) (kw : List Char) : List Char → Option (List Char × List Char × List Char)
  | [] => none
  | c :: t =>
    match matchDirAt ci kw (c :: t) with
    | some (p, rest) => some ([], p, rest)
    | none =>
      match findDir ci kw t with
      | some (pre, p, rest) => some (c :: pre, p, rest)
      | none => none

/-- One single-occurrence directive extraction step of `parseText`:
`const m = text.match(re); if (m) { payload = m[1]; text =
text.replace(m[0], "").trim(); }`.  `String.replace` with a string
pattern removes the first occurrence of the matched text, which is
exactly the matched span: the matched string itself matches the regex,
so an earlier occurrence would contradict leftmost matching. -/
def extractDir (ci : Bool) (kw : List Char) (text : List Char) :
    Option (List Char) × List Char :=
  match findDir ci kw text with
  | some (pre, p, rest) => (some p, trimChars (pre ++ rest))
  | none => (none, text)

/-- All matches of the global pattern `\\\\?ref\{([^}]+)\}` in one
left-to-right pass, exactly as both the `exec` loop and
`text.replace(refRegex, "")` traverse the string: returns the payloads
in order of appearance and the text with every matched span removed.
The `Nat` argument is step fuel; each step either consumes one
character or a whole match, so fuel equal to the length of the list
(as supplied by `findRefs`) can never run out. -/
def findRefsF (kw : List Char) : Nat → List Char → List (List Char) × List Char
  | _, [] => ([], [])
  | 0, s => ([], s)
  | fuel + 1, c :: t =>
    match matchDirAt false kw (c :: t) with
    | some (p, rest) =>
      let (ps, out) := findRefsF kw fuel rest
      (p :: ps, out)
    | none =>
      let (ps, out) := findRefsF kw fuel t
      (ps, c :: out)

/-- Reference extraction over `text` (source lines 175–178, before the
whitespace collapse). -/
def findRefs (text : List Char) : List (List Char) × List Char :=
  findRefsF ("ref".data) text.length text

mutual

/-- First half of `text.replace(/\s{2,}/g, " ")`: copy characters; at a
whitespace character followed by another whitespace character, emit a
single space and skip the rest of the run (`skipWS`).  A lone
whitespace character is kept verbatim, since `\s{2,}` needs two. -/
def collapseWS : List Char → List Char
  | [] => []
  | [c] => [c]
  | c :: c2 :: t =>
    if jsSpace c && jsSpace c2 then ' ' :: skipWS t
    else c :: collapseWS (c2 :: t)

/-- Skip the remaining whitespace of a collapsed run, then resume
copying. -/
def skipWS : List Char → List Char
  | [] => []
  | c :: t => if jsSpace c then skipWS t else c :: collapseWS t

end

/-- Separator class of the tag splitter `/[\,\s]+/`. -/
def isTagSep (c : Char) : Bool :=
  c = ',' || jsSpace c

mutual

/-- Maximal runs of non-separator characters of `s`.  This equals the
JS pipeline `s.split(/[\,\s]+/) … .filter(Boolean)`: splitting on
maximal separator runs can add empty border pieces, and exactly those
are discarded by `filter(Boolean)`. -/
def tagTokens : List Char → List (List Char)
  | [] => []
  | c :: t => if isTagSep c then tagTokens t else tokenCont c t

/-- Continue the token that starts with `c`. -/
def tokenCont (c : Char) : List Char → List (List Char)
  | [] => [[c]]
  | d :: t =>
    if isTagSep d then [c] :: tagTokens t
    else
      match tokenCont d t with
      | [] => [[c]]
      | tok :: toks => (c :: tok) :: toks

end

/-- Payload handling of the tags directive:
`m[1].split(/[\,\s]+/).map(t => t.trim().toLowerCase()).filter(Boolean)`.
Tokens contain no whitespace, so the inner `trim` is the identity; it
is kept for faithfulness. -/
def splitTags (p : List Char) : List String :=
  (tagTokens p).map (fun tok => String.mk (toLowerL (trimChars tok)))


/-- The per-line node construction of `parseText` (source lines
124–192): indentation scan, trim, extraction of the five
single-occurrence directives in source order (color, label, pos, jp,
tags — `label` and later `ref` are the two whose regexes carry no `/i`
flag), promotion of a truthy `pos` into `tags`, extraction of all
`ref` occurrences, whitespace collapse, final trim, and the
`"(untitled)"` placeholder for an empty display text. -/
def mkNode (idx : Nat) (raw : List Char) : RawNode :=
  let dr := getDepthL raw
  let text0 := trimChars dr.2
  let colorE := extractDir true ("color".data) text0
  let labelE := extractDir false ("label".data) colorE.2
  let posE := extractDir true ("pos".data) labelE.2
  let jpE := extractDir true ("jp".data) posE.2
  let tagsE := extractDir true ("tags".data) jpE.2
  let colorRaw : Option String := colorE.1.map (fun p => String.mk (trimChars p))
  let label : Option String := labelE.1.map (fun p => String.mk (trimChars p))
  let pos : Option String := posE.1.map (fun p => String.mk (toLowerL (trimChars p)))
  let jp : Option String := jpE.1.map (fun p => String.mk (trimChars p))
  let tagsArr : List String :=
    match tagsE.1 with
    | some p => splitTags p
    | none => []
  let tags : List String :=
    match pos with
    | some ps => if ps.isEmpty then tagsArr else tagsArr ++ [ps]
    | none => tagsArr
  let refsE := findRefs tagsE.2
  let textF := trimChars (collapseWS refsE.2)
  { id := "n_" ++ toString idx
    depth := (dr.1 : Int)
    line := (idx : Int)
    text := if textF.isEmpty then "(untitled)" else String.mk textF
    jp := jp
    label := label
    color := resolveColor colorRaw
    effectiveColor := none
    refs := refsE.1.map (fun p => String.mk (trimChars p))
    pos := pos
    tags := tags
    children := [] }

/-- The implicit root node (source lines 110–119). -/
def rootNode : RawNode :=
  { id := "root", depth := -1, line := -1, text := "root", jp := none,
    label := none, color := none, effectiveColor := none, refs := [],
    pos := none, tags := [], children := [] }

/-- `stack[stack.length-1].children.push(node)`: append a finished
child at the end of a parent's child list. -/
def attachChild (parent top : RawNode) : RawNode :=
  { parent with children := parent.children ++ [top] }

/-- The stack adjustment `while (stack.length && stack[top].depth >=
depth) stack.pop()` of source line 195, in a functional encoding: the
stack is a non-empty list `(top, below)`, children are attached to
their parent when the parent's frame absorbs the popped frame.  The
source's emptiness guard is unreachable because the bottom frame is
the root with depth −1, strictly below every line depth `d ≥ 0`, so
stopping at the bottom frame is equivalent. -/
def popAttach (d : Int) : RawNode → List RawNode → RawNode × List RawNode
  | top, [] => (top, [])
  | top, parent :: rest =>
    if d ≤ top.depth then popAttach d (attachChild parent top) rest
    else (top, parent :: rest)

/-- Fold the remaining open frames into the root once all lines are
consumed. -/
def collapseAll : RawNode → List RawNode → RawNode
  | top, [] => top
  | top, parent :: rest => collapseAll (attachChild parent top) rest

/-- `labelToId.set(k, v)`: later insertions shadow earlier ones. -/
def lmapSet (m : List (String × String)) (k v : String) : List (String × String) :=
  (k, v) :: m

/-- `labelToId.get(k)`. -/
def lmapGet (m : List (String × String)) (k : String) : Option String :=
  (m.find? (fun kv => kv.1 = k)).map (fun kv => kv.2)

/-- Parser state: the ancestor stack (top frame held apart so the
stack is non-empty by construction) and the label map. -/
structure ParseState where
  top : RawNode
  below : List RawNode
  lmap : List (String × String)

/-- Processing of one line (the body of the `lines.forEach` at source
lines 124–200): blank and whitespace-only lines are skipped outright;
otherwise the node is built, the stack is adjusted, the node is pushed
and, when a truthy (non-empty) label was captured, recorded in the
label map. -/
def parseStep (st : ParseState) (e : Nat × List Char) : ParseState :=
  if (trimChars e.2).isEmpty then st
  else
    let node := mkNode e.1 e.2
    let pa := popAttach node.depth st.top st.below
    { top := node
      below := pa.1 :: pa.2
      lmap :=
        match node.label with
        | some l => if l.isEmpty then st.lmap else lmapSet st.lmap l node.id
        | none => st.lmap }

mutual

/-- The color-inheritance pass `applyColor` (source lines 203–208):
`cur = node.color ?? inherited` (nullish coalescing: a present color —
even the empty string — wins), written onto `effectiveColor`, and
passed down to the children. -/
def applyColor (inherited : Option String) : RawNode → RawNode
  | ⟨i, d, ln, tx, jp, lb, co, _, rf, po, tg, ch⟩ =>
    let cur : Option String :=
      match co with
      | some c => some c
      | none => inherited
    ⟨i, d, ln, tx, jp, lb, co, cur, rf, po, tg, applyColorL cur ch⟩

def applyColorL (inherited : Option String) : List RawNode → List RawNode
  | [] => []
  | c :: cs => applyColor inherited c :: applyColorL inherited cs

end

/-- `parseText` (source lines 108–211): normalise line endings, split,
fold the line processor over the enumerated lines, close the stack,
apply color inheritance from the root, and return the root together
with the label map. -/
def parseText (input : String) : RawNode × List (String × String) :=
  let lines := splitNL (normNL input.data)
  let st := lines.enum.foldl parseStep ⟨rootNode, [], []⟩
  (applyColor none (collapseAll st.top st.below), st.lmap)

mutual

/-- All nodes of a tree: the node itself followed by the nodes of its
children, in preorder. -/
def allNodes : RawNode → List RawNode
  | ⟨i, d, ln, tx, jp, lb, co, ec, rf, po, tg, ch⟩ =>
    ⟨i, d, ln, tx, jp, lb, co, ec, rf, po, tg, ch⟩ :: allNodesL ch

def allNodesL : List RawNode → List RawNode
  | [] => []
  | c :: cs => allNodes c ++ allNodesL cs

end

mutual

/-- Parent/child edges of a tree, as `(parent id, child id)` pairs. -/
def treeEdges : RawNode → List (String × String)
  | ⟨i, _, _, _, _, _, _, _, _, _, _, ch⟩ =>
    ch.map (fun c => (i, c.id)) ++ treeEdgesL ch

def treeEdgesL : List RawNode → List (String × String)
  | [] => []
  | c :: cs => treeEdges c ++ treeEdgesL cs

end

/-- Identities of all nodes of a tree. -/
def nodeIds (root : RawNode) : List String :=
  (allNodes root).map (fun n => n.id)

/-- The id-level content of the `crossLinks` computation (source lines
372–386): for every node of the tree and every name in its `refs`, the
name is looked up in the label map; a link is produced when the lookup
succeeds, the target identity belongs to the tree (so that its layout
position exists) and the target is a different map entry than the
source (`from !== to` is reference inequality of the two stored
position objects, i.e. inequality of the two identities).  The d3
traversal order is breadth-first; this definition lists the same links
in preorder, and all statements about it are order-insensitive. -/
def crossLinks (root : RawNode) (lmap : List (String × String)) :
    List (String × String) :=
  (allNodes root).flatMap (fun n =>
    n.refs.filterMap (fun r =>
      match lmapGet lmap r with
      | none => none
      | some tid =>
        if tid ∈ nodeIds root then
          if tid = n.id then none else some (n.id, tid)
        else none))

/-- The node an enumerated line produces: none for blank or
whitespace-only lines, the freshly built node otherwise. -/
def lineNode (e : Nat × List Char) : Option RawNode :=
  if (trimChars e.2).isEmpty then none else some (mkNode e.1 e.2)

/-- Nodes created by a parse, in source order, before any child is
attached (used to state the stack-discipline claim). -/
def createdNodes (input : String) : List RawNode :=
  ((splitNL (normNL input.data)).enum).filterMap lineNode

/-- Modelled from the spec's words (claim C3): the parent of a node of
depth `d` is the most recently created earlier node of strictly
smaller depth, the implicit root when there is none. -/
def specParentId (prev : List RawNode) (d : Int) : String :=
  match prev.reverse.find? (fun m => m.depth < d) with
  | some m => m.id
  | none => "root"

/-- Modelled from the spec's words (claim C3): the edge list this
parent rule assigns to a creation-ordered node list. -/
def specEdges (prev : List RawNode) : List RawNode → List (String × String)
  | [] => []
  | n :: rest => (specParentId prev n.depth, n.id) :: specEdges (prev ++ [n]) rest

/-- Modelled from the claim C6 wording, which does not mention any
trimming of the payload: a `#`-hex shaped payload resolves to itself,
any other payload is looked up case-insensitively in the preset table,
and a payload matching neither resolves to no color. -/
def resolveColorClaimed (payload : String) : Option String :=
  if hexShape payload.data then some payload
  else presetLookup (String.mk (toLowerL payload.data))

/-- Modelled from the amended claim C6 wording: the payload is trimmed;
a trimmed `#`-hex-shaped payload resolves to itself verbatim; otherwise
the trimmed payload is lowercased and looked up in the fixed preset
table; failing that, a lowercased payload naming one of the two
all-lowercase properties inherited from `Object.prototype` —
`constructor` or `__proto__` (the only inherited names a lowercased
key can ever reach) — resolves to that truthy inherited non-color
value; every other payload resolves to no color. -/
def resolveColorAmended (payload : String) : Option JsProp :=
  if hexShape (trimChars payload.data) then
    some (JsProp.str (String.mk (trimChars payload.data)))
  else
    match presetLookup (String.mk (toLowerL (trimChars payload.data))) with
    | some v => some (JsProp.str v)
    | none =>
      if String.mk (toLowerL (trimChars payload.data)) = "constructor" ∨
          String.mk (toLowerL (trimChars payload.data)) = "__proto__" then
        some (JsProp.protoObj (String.mk (toLowerL (trimChars payload.data))))
      else none


/-- Substring test at the character level (used to state that a display
text contains no residual directive text). -/
def hasSubstr (s pat : List Char) : Bool :=
  s.tails.any (fun t => pat.isPrefixOf t)

mutual

/-- Claim-shaped color predicate: given the effective color of the
parent (`none` at the root), a tree is color-correct when every node's
`effectiveColor` is its own declared color if present and otherwise
the parent's effective color — which is exactly the effective color of
the nearest ancestor that has one, or `none` when there is none. -/
def colorOkB (parentEff : Option String) : RawNode → Bool
  | ⟨_, _, _, _, _, _, co, ec, _, _, _, ch⟩ =>
    (ec == (match co with | some c => some c | none => parentEff)) && colorOkBL ec ch

def colorOkBL (parentEff : Option String) : List RawNode → Bool
  | [] => true
  | c :: cs => colorOkB parentEff c && colorOkBL parentEff cs

end

/-- Per-node predicate: the display text is non-empty. -/
def textNEB (n : RawNode) : Bool :=
  !n.text.isEmpty

/-- Strictly increasing source lines along a list of siblings. -/
def chainLtLine : List RawNode → Bool
  | [] => true
  | [_] => true
  | a :: b :: r => (decide (a.line < b.line)) && chainLtLine (b :: r)

/-- Per-node predicate: the children appear in source order. -/
def lineChainB (n : RawNode) : Bool :=
  chainLtLine n.children

/-- Per-node predicate: every child is strictly deeper than the node. -/
def childDeeperB (n : RawNode) : Bool :=
  n.children.all (fun c => n.depth < c.depth)

/-- Content-free copy of a frame: the node data without its children
(used to compare the parser stack with the specified active path). -/
def strip (n : RawNode) : RawNode :=
  { n with children := [] }

/-- Modelled from the spec's words (claim C3): the active path of a
creation-ordered node list — the nodes that are still open, i.e. those
followed only by strictly deeper nodes. -/
def activePath : List RawNode → List RawNode
  | [] => []
  | n :: rest =>
    if rest.all (fun m => n.depth < m.depth) then n :: activePath rest
    else activePath rest

/-- Edges implied by adjacency of stack frames: each frame is a
pending child of the frame below it. -/
def adjPairs : List RawNode → List (String × String)
  | [] => []
  | [_] => []
  | a :: b :: rest => (b.id, a.id) :: adjPairs (b :: rest)

/-- All edges a frame stack will eventually produce: the edges already
inside each frame's subtree plus one pending edge per adjacent pair. -/
def stackEdges (l : List RawNode) : List (String × String) :=
  l.flatMap treeEdges ++ adjPairs l

mutual

/-- Modelled from the claim C9 wording, which collapses runs of two or
more SPACES (the code collapses runs of any whitespace): copy
characters, and at a space followed by another space emit one space
and skip the run. -/
def collapseSpacesClaimed : List Char → List Char
  | [] => []
  | [c] => [c]
  | c :: c2 :: t =>
    if c = ' ' && c2 = ' ' then ' ' :: skipSpacesClaimed t
    else c :: collapseSpacesClaimed (c2 :: t)

/-- Skip the rest of a collapsed space run (claim C9 model). -/
def skipSpacesClaimed : List Char → List Char
  | [] => []
  | c :: t => if c = ' ' then skipSpacesClaimed t else c :: collapseSpacesClaimed t

end

/-- Frame-stack invariant used for the tree-shape claims: every
frame's subtree has strictly increasing depths along edges, adjacent
frames have strictly decreasing depths going down, and the bottom
frame is the implicit root. -/
def FramesOk (top : RawNode) (below : List RawNode) : Prop :=
  (∀ f ∈ top :: below, (allNodes f).all childDeeperB = true) ∧
  List.Chain' (fun a b => b.depth < a.depth) (top :: below) ∧
  (∀ x, (top :: below).getLast? = some x →
    x.id = "root" ∧ x.depth = -1 ∧ x.line = -1)

/-- Strictly increasing line indices, starting at or after a bound
(the shape `List.enum` produces). -/
def idxOk : Nat → List (Nat × List Char) → Prop
  | _, [] => True
  | b, e :: es => b ≤ e.1 ∧ idxOk (e.1 + 1) es

/-- Between adjacent stack frames, every node already attached below
was created before the frame above was pushed. -/
def AdjLines : List RawNode → Prop
  | [] => True
  | [_] => True
  | a :: b :: rest => (∀ x ∈ allNodesL b.children, x.line < a.line) ∧ AdjLines (b :: rest)

/-- Line-number discipline of the frame stack: all stored nodes come
from lines before `b`, children lists are sorted by source line inside
every frame's subtree, and adjacent frames satisfy `AdjLines`. -/
structure StackLinesOk (b : Nat) (l : List RawNode) : Prop where
  hlines : ∀ f ∈ l, ∀ x ∈ allNodes f, x.line < (b : Int)
  hsorted : ∀ f ∈ l, (allNodes f).all lineChainB = true
  hadj : AdjLines l

/-- Master invariant of the line fold for the stack-discipline claim:
`C` is the list of nodes created so far (children still empty), the
stripped stack is the active path of `C` (most recent first) over the
root, the edges the stack will produce are exactly the specified ones,
and the line bookkeeping of `StackLinesOk` holds. -/
structure PInv (b : Nat) (C : List RawNode) (st : ParseState) : Prop where
  hC : ∀ n ∈ C, n.children = []
  hstrip : (st.top :: st.below).map strip = (activePath C).reverse ++ [rootNode]
  hedges : List.Perm (stackEdges (st.top :: st.below)) (specEdges [] C)
  hlok : StackLinesOk b (st.top :: st.below)

-- ===================================================================
-- Theorems
-- ===================================================================

theorem trimChars_eq_self {l : List Char} (h : ∀ c ∈ l, jsSpace c = false) :
    trimChars l = l := by
  have h1 : l.dropWhile jsSpace = l := by
    cases l with
    | nil => rfl
    | cons c t => rw [List.dropWhile_cons_of_neg (by simp [h c (by simp)])]
  rw [trimChars, h1]
  have h2 : l.reverse.dropWhile jsSpace = l.reverse := by
    cases hr : l.reverse with
    | nil => rfl
    | cons c t =>
      rw [List.dropWhile_cons_of_neg]
      simp only [Bool.not_eq_true]
      apply h
      have : c ∈ l.reverse := by rw [hr]; simp
      simpa using this
  rw [h2, List.reverse_reverse]

theorem isHexDigit_not_space {c : Char} (h : isHexDigit c = true) : jsSpace c = false := by
  by_contra hs
  have hs' : jsSpace c = true := by
    cases hjs : jsSpace c
    · exact absurd hjs hs
    · rfl
  simp only [jsSpace, Bool.or_eq_true, decide_eq_true_eq] at hs'
  rcases hs' with ((((h1 | h1) | h1) | h1) | h1) | h1 <;>
    (subst h1; simp [isHexDigit] at h)

/-- C2: the indentation depth of a line is the number of blocks in the
maximal leading run of indentation blocks, where a block is a single
TAB or a full pair of spaces; scanning stops at the first character
that starts no block (in particular an unpaired space is not
consumed), and the remainder after the consumed prefix is the working
text.  Lines `A`, `  B` (two spaces), `    C` (four spaces) get
depths 0, 1, 2, also as nodes of a parse. -/
theorem c2_indentation_depth :
    (∀ s : List Char,
      ∃ blocks : List (List Char),
        (∀ b ∈ blocks, b = ['\t'] ∨ b = [' ', ' ']) ∧
        s = blocks.flatten ++ (getDepthL s).2 ∧
        (getDepthL s).1 = blocks.length ∧
        (∀ t, (getDepthL s).2 ≠ '\t' :: t) ∧
        (∀ t, (getDepthL s).2 ≠ ' ' :: ' ' :: t)) ∧
    getDepth "A" = (0, "A") ∧ getDepth "  B" = (1, "B") ∧
    getDepth "    C" = (2, "C") ∧ getDepth " x" = (0, " x") ∧
    (createdNodes "A\n  B\n    C").map RawNode.depth = [0, 1, 2] := by
  refine ⟨?_, rfl, rfl, rfl, rfl, rfl⟩
  intro s
  induction s using getDepthL.induct with
  | case1 t ih =>
    obtain ⟨blocks, hb, hs, hd, h1, h2⟩ := ih
    refine ⟨['\t'] :: blocks, ?_, ?_, ?_, ?_, ?_⟩
    · intro b hb'
      rcases List.mem_cons.mp hb' with h | h
      · exact Or.inl h
      · exact hb b h
    · show '\t' :: t = (['\t'] :: blocks).flatten ++ (getDepthL ('\t' :: t)).2
      rw [List.flatten_cons]
      show '\t' :: t = ['\t'] ++ blocks.flatten ++ ((getDepthL t).1 + 1, (getDepthL t).2).2
      simp only [List.cons_append, List.nil_append, List.append_assoc]
      rw [← hs]
    · show ((getDepthL t).1 + 1, (getDepthL t).2).1 = (['\t'] :: blocks).length
      simp only [List.length_cons]
      omega
    · intro u
      show ((getDepthL t).1 + 1, (getDepthL t).2).2 ≠ '\t' :: u
      exact h1 u
    · intro u
      show ((getDepthL t).1 + 1, (getDepthL t).2).2 ≠ ' ' :: ' ' :: u
      exact h2 u
  | case2 t ih =>
    obtain ⟨blocks, hb, hs, hd, h1, h2⟩ := ih
    refine ⟨[' ', ' '] :: blocks, ?_, ?_, ?_, ?_, ?_⟩
    · intro b hb'
      rcases List.mem_cons.mp hb' with h | h
      · exact Or.inr h
      · exact hb b h
    · show ' ' :: ' ' :: t = ([' ', ' '] :: blocks).flatten ++ (getDepthL (' ' :: ' ' :: t)).2
      rw [List.flatten_cons]
      show ' ' :: ' ' :: t =
        [' ', ' '] ++ blocks.flatten ++ ((getDepthL t).1 + 1, (getDepthL t).2).2
      simp only [List.cons_append, List.nil_append, List.append_assoc]
      rw [← hs]
    · show ((getDepthL t).1 + 1, (getDepthL t).2).1 = ([' ', ' '] :: blocks).length
      simp only [List.length_cons]
      omega
    · intro u
      show ((getDepthL t).1 + 1, (getDepthL t).2).2 ≠ '\t' :: u
      exact h1 u
    · intro u
      show ((getDepthL t).1 + 1, (getDepthL t).2).2 ≠ ' ' :: ' ' :: u
      exact h2 u
  | case3 s h1 h2 =>
    have he : getDepthL s = (0, s) := by
      rw [getDepthL.eq_def]
      split
      · exact absurd rfl (h1 _)
      · exact absurd rfl (h2 _)
      · rfl
    refine ⟨[], by simp, by simp [he], by simp [he], ?_, ?_⟩
    · intro t ht
      rw [he] at ht
      exact h1 t ht
    · intro t ht
      rw [he] at ht
      exact h2 t ht

theorem c2_indentation_depth_witness :
    ∃ blocks : List (List Char),
      (∀ b ∈ blocks, b = ['\t'] ∨ b = [' ', ' ']) ∧
      ("  B".data) = blocks.flatten ++ (getDepthL ("  B".data)).2 ∧
      (getDepthL ("  B".data)).1 = blocks.length ∧
      (∀ t, (getDepthL ("  B".data)).2 ≠ '\t' :: t) ∧
      (∀ t, (getDepthL ("  B".data)).2 ≠ ' ' :: ' ' :: t) :=
  c2_indentation_depth.1 ("  B".data)

theorem isEmpty_mk_iff (l : List Char) : (String.mk l).isEmpty = true ↔ l = [] := by
  rw [String.isEmpty_iff (String.mk l)]
  constructor
  · intro h
    have := congrArg String.data h
    simpa using this
  · intro h
    rw [h]

/-- Range of character lower-casing: `Char.toLower` never produces a
basic-latin capital letter, at the code-point level. -/
theorem toLower_toNat_not_upper (c : Char) :
    ¬(65 ≤ (Char.toLower c).toNat ∧ (Char.toLower c).toNat ≤ 90) := by
  simp only [Char.toLower]
  by_cases h : c.toNat ≥ 65 ∧ c.toNat ≤ 90
  · rw [if_pos h]
    have hv : (c.toNat + 32).isValidChar := by
      left
      omega
    have ht : (Char.ofNat (c.toNat + 32)).toNat = c.toNat + 32 := by
      rw [Char.ofNat, dif_pos hv]
      rfl
    rw [ht]
    omega
  · rw [if_neg h]
    exact h

theorem toLower_not_upper (c : Char) :
    ¬('A' ≤ Char.toLower c ∧ Char.toLower c ≤ 'Z') := by
  intro h
  apply toLower_toNat_not_upper c
  have h1 := h.1
  have h2 := h.2
  rw [Char.le_def, UInt32.le_def, BitVec.le_def] at h1 h2
  exact ⟨h1, h2⟩

/-- A lower-cased string never equals a string containing a capital
letter. -/
theorem mk_toLower_ne (l : List Char) (nm : String) (c : Char)
    (hc : c ∈ nm.data) (hup : 'A' ≤ c ∧ c ≤ 'Z') : String.mk (toLowerL l) ≠ nm := by
  intro h
  have hdata : toLowerL l = nm.data := congrArg String.data h
  rw [← hdata, toLowerL] at hc
  obtain ⟨a, _, ha⟩ := List.mem_map.mp hc
  rw [← ha] at hup
  exact toLower_not_upper a hup

/-- The only properties inherited from `Object.prototype` that a
lower-cased key can name are `constructor` and `__proto__`: every
other inherited name contains a capital letter. -/
theorem mem_proto_iff (l : List Char) :
    String.mk (toLowerL l) ∈ OBJECT_PROTO_PROPS ↔
      (String.mk (toLowerL l) = "constructor" ∨
        String.mk (toLowerL l) = "__proto__") := by
  constructor
  · intro hmem
    simp only [OBJECT_PROTO_PROPS, List.mem_cons, List.not_mem_nil, or_false] at hmem
    rcases hmem with h | h | h | h | h | h | h | h | h | h | h | h
    · exact Or.inl h
    · exact absurd h (mk_toLower_ne l _ 'O' (by decide) (by decide))
    · exact absurd h (mk_toLower_ne l _ 'P' (by decide) (by decide))
    · exact absurd h (mk_toLower_ne l _ 'I' (by decide) (by decide))
    · exact absurd h (mk_toLower_ne l _ 'L' (by decide) (by decide))
    · exact absurd h (mk_toLower_ne l _ 'S' (by decide) (by decide))
    · exact absurd h (mk_toLower_ne l _ 'O' (by decide) (by decide))
    · exact absurd h (mk_toLower_ne l _ 'G' (by decide) (by decide))
    · exact absurd h (mk_toLower_ne l _ 'S' (by decide) (by decide))
    · exact absurd h (mk_toLower_ne l _ 'G' (by decide) (by decide))
    · exact absurd h (mk_toLower_ne l _ 'S' (by decide) (by decide))
    · exact Or.inr h
  · intro h
    rcases h with h | h <;> rw [h] <;> decide

/-- The string-typed `resolveColor` used inside the parse pipeline is
the projection of the full model that collapses the truthy inherited
`Object.prototype` values (which are not color strings) to `none` and
keeps every string result. -/
theorem resolveColor_projects_full (s : Option String) :
    resolveColor s = (resolveColorFull s).bind
      (fun j => match j with | JsProp.str v => some v | JsProp.protoObj _ => none) := by
  cases s with
  | none => rfl
  | some str =>
    by_cases h : str.isEmpty = true
    · simp only [resolveColor, resolveColorFull, h]
      rfl
    · have hne : str.isEmpty = false := by
        cases he : str.isEmpty
        · rfl
        · exact absurd he h
      simp only [resolveColor, resolveColorFull, hne]
      by_cases hx : hexShape (trimChars str.data) = true
      · rw [if_pos hx, if_pos hx]
        rfl
      · rw [if_neg hx, if_neg hx, presetLookupFull, presetLookup]
        cases hf : COLOR_PRESETS.find?
            (fun kv => kv.1 = String.mk (toLowerL (trimChars str.data))) with
        | some kv => rfl
        | none =>
          by_cases hm : String.mk (toLowerL (trimChars str.data)) ∈ OBJECT_PROTO_PROPS
          · rw [if_pos hm]
            rfl
          · rw [if_neg hm]
            rfl

/-- C6 counterexample: the claim describes the resolution of a color
payload as a case-insensitive lookup among the fixed preset names with
no trimming (`resolveColorClaimed`), anything else resolving to no
color.  The program disagrees twice over: on the payload `" red "`
(as captured from `color{ red }`) it trims first and yields the red
preset, and on the payload `"constructor"` the bracket access on the
plain preset object reaches the inherited
`Object.prototype.constructor` — a truthy non-color value that the
`preset ?? undefined` of source line 104 passes through — while the claimed rule
yields no color in both cases. -/
theorem c6_color_resolution_cex :
    resolveColorFull (some " red ") = some (JsProp.str "#ef4444") ∧
    resolveColorClaimed " red " = none ∧
    resolveColorFull (some "constructor") = some (JsProp.protoObj "constructor") ∧
    resolveColorClaimed "constructor" = none :=
  ⟨rfl, rfl, rfl, rfl⟩

/-- C6 (amended): color payloads are trimmed of surrounding whitespace
before resolution.  The trimmed payload resolves to itself verbatim
when it is `#` followed by exactly 3, 6 or 8 hex digits; otherwise it
is lowercased and looked up among the eleven preset entries; failing
that, because the preset table is a plain object literal, the bracket
access also reaches the properties it inherits from
`Object.prototype` — after lowercasing exactly the names `constructor`
and `__proto__` — and for those the program returns the truthy
inherited non-color value instead of `undefined`; every other payload
resolves to no color, never an error.  A hex-shaped payload contains
no whitespace, so it still resolves to itself verbatim, and the
payload `"RED"` yields the red preset literal. -/
theorem c6_color_resolution :
    (∀ s : String, resolveColorFull (some s) = resolveColorAmended s) ∧
    (∀ s : String, hexShape s.data = true →
      resolveColorFull (some s) = some (JsProp.str s)) ∧
    resolveColorFull (some "RED") = some (JsProp.str "#ef4444") ∧
    resolveColorFull (some "#0ea5e9") = some (JsProp.str "#0ea5e9") ∧
    resolveColorFull (some "unknown") = none ∧
    resolveColorFull (some "Constructor") = some (JsProp.protoObj "constructor") ∧
    resolveColorFull (some " __proto__ ") = some (JsProp.protoObj "__proto__") ∧
    resolveColorFull none = none := by
  refine ⟨?_, ?_, rfl, rfl, rfl, rfl, rfl, rfl⟩
  · intro s
    by_cases h : s = ""
    · subst h
      decide
    · have hne : s.isEmpty = false := by
        cases he : s.isEmpty
        · rfl
        · exact absurd ((String.isEmpty_iff s).mp he) h
      simp only [resolveColorFull, hne]
      by_cases hx : hexShape (trimChars s.data) = true
      · rw [if_pos hx, resolveColorAmended, if_pos hx]
        rfl
      · rw [if_neg hx, resolveColorAmended, if_neg hx, presetLookupFull]
        cases hp : presetLookup (String.mk (toLowerL (trimChars s.data))) with
        | some v => rfl
        | none =>
          by_cases hm : String.mk (toLowerL (trimChars s.data)) ∈ OBJECT_PROTO_PROPS
          · rw [if_pos hm, if_pos ((mem_proto_iff _).mp hm)]
            rfl
          · rw [if_neg hm, if_neg (fun hc => hm ((mem_proto_iff _).mpr hc))]
            rfl
  · intro s hs
    have hshape : ∃ t, s.data = '#' :: t ∧ t.all isHexDigit = true := by
      cases hd : s.data with
      | nil => rw [hd] at hs; simp [hexShape] at hs
      | cons c t =>
        rw [hd, hexShape] at hs
        have h1 := (Bool.and_eq_true _ _).mp hs
        have hc : c = '#' := by simpa using h1.1
        exact ⟨t, by rw [hc], ((Bool.and_eq_true _ _).mp h1.2).1⟩
    obtain ⟨t, hdt, hall⟩ := hshape
    have hdata : ∀ c ∈ s.data, jsSpace c = false := by
      intro c hc
      rw [hdt] at hc
      rcases List.mem_cons.mp hc with h | h
      · subst h
        rfl
      · exact isHexDigit_not_space (List.all_eq_true.mp hall c h)
    have hne : s.isEmpty = false := by
      cases he : s.isEmpty
      · rfl
      · exfalso
        have hs0 : s = "" := (String.isEmpty_iff s).mp he
        rw [hs0] at hdt
        exact List.noConfusion hdt
    have htrim : trimChars s.data = s.data := trimChars_eq_self hdata
    simp only [resolveColorFull, hne]
    show (if hexShape (trimChars s.data)
          then some (JsProp.str (String.mk (trimChars s.data)))
          else presetLookupFull (String.mk (toLowerL (trimChars s.data)))) =
      some (JsProp.str s)
    rw [htrim]
    simp only [hs, if_true]

theorem c6_color_resolution_witness :
    resolveColorFull (some " red ") = resolveColorAmended " red " ∧
    (hexShape ("#abc").data = true ∧
      resolveColorFull (some "#abc") = some (JsProp.str "#abc")) ∧
    resolveColorFull (some " CONSTRUCTOR ") = resolveColorAmended " CONSTRUCTOR " :=
  ⟨c6_color_resolution.1 " red ",
   ⟨rfl, c6_color_resolution.2.1 "#abc" rfl⟩,
   c6_color_resolution.1 " CONSTRUCTOR "⟩

theorem isEmpty_mk (l : List Char) : (String.mk l).isEmpty = l.isEmpty := by
  cases l with
  | nil => rfl
  | cons c t =>
    cases he : (String.mk (c :: t)).isEmpty
    · rfl
    · exact absurd ((isEmpty_mk_iff (c :: t)).mp he) (by simp)

/-- C7 counterexample: the claim says every directive keyword is
matched case-insensitively, e.g. that `LABEL{x}` and `Ref{x}` (with a
leading backslash) are extracted exactly as their lowercase spellings
would be; in the code the label and reference regexes carry no `/i`
flag, so the uppercase spellings are not extracted at all: no label
map entry, no label, no reference, and the raw directive text stays in
the display text. -/
theorem c7_keyword_case_cex :
    (parseText "a \\label\x7bx\x7d").2 = [("x", "n_0")] ∧
    (parseText "a \\LABEL\x7bx\x7d").2 = [] ∧
    ((parseText "a \\label\x7bx\x7d").1.children.map RawNode.label) = [some "x"] ∧
    ((parseText "a \\LABEL\x7bx\x7d").1.children.map RawNode.label) = [none] ∧
    ((parseText "a \\LABEL\x7bx\x7d").1.children.map RawNode.text) =
      ["a \\LABEL\x7bx\x7d"] ∧
    ((parseText "b \\ref\x7bx\x7d").1.children.map RawNode.refs) = [["x"]] ∧
    ((parseText "b \\Ref\x7bx\x7d").1.children.map RawNode.refs) = [[]] ∧
    ((parseText "b \\Ref\x7bx\x7d").1.children.map RawNode.text) =
      ["b \\Ref\x7bx\x7d"] :=
  ⟨rfl, rfl, rfl, rfl, rfl, rfl, rfl, rfl⟩

/-- C7 (amended): the color, part-of-speech, translation and tags
directives are matched with the keyword compared case-insensitively,
while the label and reference directives match only the lowercase
keyword spelling. -/
theorem c7_keyword_case :
    ((parseText "a \\COLOR\x7bred\x7d").1.children.map RawNode.color) =
      [some "#ef4444"] ∧
    ((parseText "a \\Color\x7bred\x7d").1.children.map RawNode.color) =
      [some "#ef4444"] ∧
    ((parseText "a \\PoS\x7bN\x7d").1.children.map RawNode.pos) = [some "n"] ∧
    ((parseText "a \\JP\x7bw\x7d").1.children.map RawNode.jp) = [some "w"] ∧
    ((parseText "a \\TAGS\x7bt1\x7d").1.children.map RawNode.tags) = [["t1"]] ∧
    ((parseText "a \\label\x7bx\x7d").2 = [("x", "n_0")]) ∧
    ((parseText "a \\LABEL\x7bx\x7d").2 = []) ∧
    ((parseText "b \\ref\x7bx\x7d").1.children.map RawNode.refs) = [["x"]] ∧
    ((parseText "b \\Ref\x7bx\x7d").1.children.map RawNode.refs) = [[]] :=
  ⟨rfl, rfl, rfl, rfl, rfl, rfl, rfl, rfl, rfl⟩

/-- C5: label/reference round trip.  With `label{x}` on one node and
`ref{x}` on another (keywords written with a backslash), the label map
sends `x` to the labelled node's identity, the referencing node's
reference list contains `x` (references are collected left-to-right
and removed from the display text), and the referencing node's display
text contains no residual `\ref\x7b` substring. -/
theorem c5_label_ref_roundtrip :
    (parseText "node \\label\x7bapple\x7d\nuse \\ref\x7bapple\x7d here").2 =
      [("apple", "n_0")] ∧
    ((parseText "node \\label\x7bapple\x7d\nuse \\ref\x7bapple\x7d here").1.children.map
      RawNode.refs) = [[], ["apple"]] ∧
    ((parseText "node \\label\x7bapple\x7d\nuse \\ref\x7bapple\x7d here").1.children.map
      RawNode.text) = ["node", "use here"] ∧
    ((parseText "node \\label\x7bapple\x7d\nuse \\ref\x7bapple\x7d here").1.children.map
      (fun n => hasSubstr n.text.data ("\\ref\x7b".data))) = [false, false] ∧
    ((parseText "a \\ref\x7bx\x7d b \\ref\x7by\x7d").1.children.map RawNode.refs) =
      [["x", "y"]] ∧
    ((parseText "a \\ref\x7bx\x7d b \\ref\x7by\x7d").1.children.map RawNode.text) =
      [["a b"].getLast!] :=
  ⟨rfl, rfl, rfl, by decide, rfl, rfl⟩

mutual

theorem tagTokens_ok : ∀ l : List Char, ∀ tok ∈ tagTokens l,
    tok ≠ [] ∧ ∀ x ∈ tok, isTagSep x = false
  | [] => by simp [tagTokens]
  | c :: t => by
    intro tok htok
    rw [tagTokens] at htok
    by_cases hc : isTagSep c = true
    · rw [if_pos hc] at htok
      exact tagTokens_ok t tok htok
    · rw [if_neg hc] at htok
      exact tokenCont_ok c t (Bool.not_eq_true _ ▸ hc) tok htok

theorem tokenCont_ok : ∀ (c : Char) (l : List Char), isTagSep c = false →
    ∀ tok ∈ tokenCont c l, tok ≠ [] ∧ ∀ x ∈ tok, isTagSep x = false
  | c, [], hc => by
    intro tok htok
    rw [tokenCont] at htok
    have h1 : tok = [c] := by simpa using htok
    subst h1
    refine ⟨by simp, ?_⟩
    intro x hx
    have h2 : x = c := by simpa using hx
    subst h2
    exact hc
  | c, d :: t, hc => by
    intro tok htok
    rw [tokenCont] at htok
    by_cases hd : isTagSep d = true
    · rw [if_pos hd] at htok
      rcases List.mem_cons.mp htok with h | h
      · subst h
        refine ⟨by simp, ?_⟩
        intro x hx
        have h2 : x = c := by simpa using hx
        subst h2
        exact hc
      · exact tagTokens_ok t tok h
    · rw [if_neg hd] at htok
      have hd' : isTagSep d = false := Bool.not_eq_true _ ▸ hd
      rcases hm : tokenCont d t with _ | ⟨tok', toks⟩
      · rw [hm] at htok
        have h1 : tok = [c] := by simpa using htok
        subst h1
        refine ⟨by simp, ?_⟩
        intro x hx
        have h2 : x = c := by simpa using hx
        subst h2
        exact hc
      · rw [hm] at htok
        rcases List.mem_cons.mp htok with h | h
        · subst h
          have h' := tokenCont_ok d t hd' tok' (by rw [hm]; exact List.mem_cons_self _ _)
          refine ⟨by simp, ?_⟩
          intro x hx
          rcases List.mem_cons.mp hx with h2 | h2
          · subst h2
            exact hc
          · exact h'.2 x h2
        · exact tokenCont_ok d t hd' tok (by rw [hm]; exact List.mem_cons_of_mem _ h)

end

theorem isTagSep_false_not_space {c : Char} (h : isTagSep c = false) : jsSpace c = false := by
  rw [isTagSep] at h
  exact (Bool.or_eq_false_iff.mp h).2

theorem splitTags_ne_empty {p : List Char} {s : String} (h : s ∈ splitTags p) : s ≠ "" := by
  rw [splitTags] at h
  obtain ⟨tok, htok, hfn⟩ := List.mem_map.mp h
  obtain ⟨hne, hsep⟩ := tagTokens_ok p tok htok
  have htrim : trimChars tok = tok :=
    trimChars_eq_self (fun c hc => isTagSep_false_not_space (hsep c hc))
  intro h0
  rw [← hfn, htrim] at h0
  have hdata := congrArg String.data h0
  simp only [toLowerL] at hdata
  have : tok = [] := by
    have hlen := congrArg List.length hdata
    simp at hlen
    exact hlen
  exact hne this

/-- C10 counterexample: the claim says the lowercased, trimmed payload
of a matched `pos` directive is always appended to the node's tags; an
all-whitespace payload (here a single space) is trimmed to the empty
string, which stores `partOfSpeech = ""` but is falsy in
`if (pos) tags.push(pos)`, so it is not appended to tags. -/
theorem c10_pos_empty_cex :
    ((parseText "x \\pos\x7b \x7d").1.children.map RawNode.pos) = [some ""] ∧
    ((parseText "x \\pos\x7b \x7d").1.children.map RawNode.tags) = [[]] :=
  ⟨rfl, rfl⟩

/-- C10 (amended): whenever the pos directive matches with payload `q`,
the stored `partOfSpeech` is `q` trimmed and lowercased (not the raw
payload); when that string is non-empty it is appended as the last
element of the node's tags, and when it is empty (all-whitespace
payload) it is stored as `partOfSpeech` but not appended — indeed the
empty string never occurs among tags.  Concretely, `pos{ NOUN }` gives
`partOfSpeech "noun"` and appends the tag `"noun"`. -/
theorem c10_pos_lowercased :
    (∀ (idx : Nat) (raw : List Char) (q : List Char),
      (extractDir true ("pos".data)
        (extractDir false ("label".data)
          (extractDir true ("color".data)
            (trimChars (getDepthL raw).2)).2).2).1 = some q →
      (mkNode idx raw).pos = some (String.mk (toLowerL (trimChars q))) ∧
      ((toLowerL (trimChars q)).isEmpty = false →
        (mkNode idx raw).tags.getLast? = some (String.mk (toLowerL (trimChars q)))) ∧
      ((toLowerL (trimChars q)).isEmpty = true →
        (mkNode idx raw).pos = some "")) ∧
    (∀ (idx : Nat) (raw : List Char), "" ∉ (mkNode idx raw).tags) ∧
    ((parseText "x \\pos\x7b NOUN \x7d").1.children.map RawNode.pos) = [some "noun"] ∧
    ((parseText "x \\pos\x7b NOUN \x7d").1.children.map RawNode.tags) = [["noun"]] ∧
    ((parseText "x \\tags\x7ba\x7d \\pos\x7bV\x7d").1.children.map RawNode.tags) =
      [["a", "v"]] := by
  refine ⟨?_, ?_, rfl, rfl, rfl⟩
  · intro idx raw q h
    refine ⟨?_, ?_, ?_⟩
    · simp only [mkNode, h, Option.map_some']
    · intro hne
      simp only [mkNode, h, Option.map_some']
      rw [isEmpty_mk, hne]
      simp only [Bool.false_eq_true, if_false, List.getLast?_concat]
    · intro hem
      simp only [mkNode, h, Option.map_some']
      have h0 : toLowerL (trimChars q) = [] := by
        cases hq : toLowerL (trimChars q)
        · rfl
        · rw [hq] at hem
          simp [List.isEmpty] at hem
      rw [h0]
  · intro idx raw hmem
    rcases hp : (extractDir true ("pos".data)
        (extractDir false ("label".data)
          (extractDir true ("color".data)
            (trimChars (getDepthL raw).2)).2).2).1 with _ | q <;>
      rcases ht : (extractDir true ("tags".data)
          (extractDir true ("jp".data)
            (extractDir true ("pos".data)
              (extractDir false ("label".data)
                (extractDir true ("color".data)
                  (trimChars (getDepthL raw).2)).2).2).2).2).1 with _ | p <;>
      simp only [mkNode, hp, ht, Option.map_some', Option.map_none'] at hmem
    · exact List.not_mem_nil _ hmem
    · exact splitTags_ne_empty hmem rfl
    · by_cases he : (String.mk (toLowerL (trimChars q))).isEmpty = true
      · rw [if_pos he] at hmem
        exact List.not_mem_nil _ hmem
      · rw [if_neg he] at hmem
        have h1 : ("" : String) = String.mk (toLowerL (trimChars q)) := by
          simpa using hmem
        rw [String.isEmpty_iff (String.mk (toLowerL (trimChars q)))] at he
        exact he h1.symm
    · by_cases he : (String.mk (toLowerL (trimChars q))).isEmpty = true
      · rw [if_pos he] at hmem
        exact splitTags_ne_empty hmem rfl
      · rw [if_neg he] at hmem
        rcases List.mem_append.mp hmem with hm | hm
        · exact splitTags_ne_empty hm rfl
        · have h1 : ("" : String) = String.mk (toLowerL (trimChars q)) := by
            simpa using hm
          rw [String.isEmpty_iff (String.mk (toLowerL (trimChars q)))] at he
          exact he h1.symm

theorem c10_pos_lowercased_witness :
    ((extractDir true ("pos".data)
        (extractDir false ("label".data)
          (extractDir true ("color".data)
            (trimChars (getDepthL ("x \\pos\x7b NOUN \x7d".data)).2)).2).2).1 =
        some (" NOUN ".data)) ∧
    (mkNode 0 ("x \\pos\x7b NOUN \x7d".data)).pos = some "noun" ∧
    (mkNode 0 ("x \\pos\x7b NOUN \x7d".data)).tags.getLast? = some "noun" := by
  have h := c10_pos_lowercased.1 0 ("x \\pos\x7b NOUN \x7d".data) (" NOUN ".data) rfl
  exact ⟨rfl, h.1.trans rfl, (h.2.1 rfl).trans rfl⟩

theorem allNodes_eq (n : RawNode) : allNodes n = n :: allNodesL n.children := by
  cases n
  rfl

theorem allNodesL_append (l₁ l₂ : List RawNode) :
    allNodesL (l₁ ++ l₂) = allNodesL l₁ ++ allNodesL l₂ := by
  induction l₁ with
  | nil => rfl
  | cons c cs ih => rw [List.cons_append, allNodesL, allNodesL, ih, List.append_assoc]

theorem mem_allNodesL {x : RawNode} {l : List RawNode} :
    x ∈ allNodesL l ↔ ∃ c ∈ l, x ∈ allNodes c := by
  induction l with
  | nil => simp [allNodesL]
  | cons c cs ih =>
    rw [allNodesL, List.mem_append, ih]
    constructor
    · intro h
      rcases h with h | ⟨d, hd, hx⟩
      · exact ⟨c, List.mem_cons_self c cs, h⟩
      · exact ⟨d, List.mem_cons_of_mem c hd, hx⟩
    · intro ⟨d, hd, hx⟩
      rcases List.mem_cons.mp hd with h | h
      · subst h
        exact Or.inl hx
      · exact Or.inr ⟨d, h, hx⟩

theorem self_mem_allNodes (n : RawNode) : n ∈ allNodes n := by
  rw [allNodes_eq]
  exact List.mem_cons_self n _

theorem mem_allNodes_iff {x n : RawNode} :
    x ∈ allNodes n ↔ x = n ∨ ∃ c ∈ n.children, x ∈ allNodes c := by
  rw [allNodes_eq, List.mem_cons, mem_allNodesL]

theorem attachChild_id (p t : RawNode) : (attachChild p t).id = p.id := rfl

theorem attachChild_depth (p t : RawNode) : (attachChild p t).depth = p.depth := rfl

theorem attachChild_line (p t : RawNode) : (attachChild p t).line = p.line := rfl

theorem attachChild_text (p t : RawNode) : (attachChild p t).text = p.text := rfl

theorem attachChild_children (p t : RawNode) :
    (attachChild p t).children = p.children ++ [t] := rfl

theorem mem_allNodes_attach {x : RawNode} {p t : RawNode} :
    x ∈ allNodes (attachChild p t) ↔
      x = attachChild p t ∨ x ∈ allNodesL p.children ∨ x ∈ allNodes t := by
  rw [allNodes_eq, attachChild_children, allNodesL_append, List.mem_cons, List.mem_append]
  rw [allNodesL, allNodesL, List.append_nil]

theorem applyColor_id (inh : Option String) (n : RawNode) :
    (applyColor inh n).id = n.id := by
  cases n
  rfl

theorem applyColor_depth (inh : Option String) (n : RawNode) :
    (applyColor inh n).depth = n.depth := by
  cases n
  rfl

theorem applyColor_line (inh : Option String) (n : RawNode) :
    (applyColor inh n).line = n.line := by
  cases n
  rfl

theorem applyColor_text (inh : Option String) (n : RawNode) :
    (applyColor inh n).text = n.text := by
  cases n
  rfl

theorem applyColor_refs (inh : Option String) (n : RawNode) :
    (applyColor inh n).refs = n.refs := by
  cases n
  rfl

theorem applyColorL_map_line (inh : Option String) (l : List RawNode) :
    (applyColorL inh l).map RawNode.line = l.map RawNode.line := by
  induction l with
  | nil => rfl
  | cons c cs ih => rw [applyColorL, List.map_cons, List.map_cons, applyColor_line, ih]

theorem applyColorL_map_depth (inh : Option String) (l : List RawNode) :
    (applyColorL inh l).map RawNode.depth = l.map RawNode.depth := by
  induction l with
  | nil => rfl
  | cons c cs ih => rw [applyColorL, List.map_cons, List.map_cons, applyColor_depth, ih]

theorem applyColorL_map_id (inh : Option String) (l : List RawNode) :
    (applyColorL inh l).map RawNode.id = l.map RawNode.id := by
  induction l with
  | nil => rfl
  | cons c cs ih => rw [applyColorL, List.map_cons, List.map_cons, applyColor_id, ih]

mutual

theorem colorOk_applyColor : ∀ (inh : Option String) (n : RawNode),
    colorOkB inh (applyColor inh n) = true
  | inh, ⟨i, d, ln, tx, jp, lb, co, ec, rf, po, tg, ch⟩ => by
    show (((match co with | some c => some c | none => inh : Option String) ==
           (match co with | some c => some c | none => inh : Option String)) &&
          colorOkBL (match co with | some c => some c | none => inh)
            (applyColorL (match co with | some c => some c | none => inh) ch)) = true
    rw [colorOkL_applyColorL (match co with | some c => some c | none => inh) ch]
    simp

theorem colorOkL_applyColorL : ∀ (inh : Option String) (cs : List RawNode),
    colorOkBL inh (applyColorL inh cs) = true
  | _, [] => rfl
  | inh, c :: cs => by
    show (colorOkB inh (applyColor inh c) && colorOkBL inh (applyColorL inh cs)) = true
    rw [colorOk_applyColor inh c, colorOkL_applyColorL inh cs]
    rfl

end

/-- C4: after a parse completes, every node's `effectiveColor` equals
its declared color when present, otherwise the effective color passed
down from its parent — i.e. the effective color of the nearest
ancestor that has one, or none at all (`colorOkB` checks exactly this
recurrence over the whole returned tree, starting from `none` at the
root).  Moreover the assignment is a top-down function of the declared
color and the inherited color alone: the `effectiveColor` that
`applyColor` writes on a node does not depend on the node's children,
so no node's effective color reads a descendant's color. -/
theorem c4_effective_color :
    (∀ input : String, colorOkB none (parseText input).1 = true) ∧
    (∀ (inh : Option String) (i : String) (d ln : Int) (tx : String)
      (jp lb co ec : Option String) (rf : List String) (po : Option String)
      (tg : List String) (ch : List RawNode),
      (applyColor inh ⟨i, d, ln, tx, jp, lb, co, ec, rf, po, tg, ch⟩).effectiveColor =
        (match co with | some c => some c | none => inh)) := by
  constructor
  · intro input
    exact colorOk_applyColor none _
  · intro inh i d ln tx jp lb co ec rf po tg ch
    rfl

theorem parseStep_blank {st : ParseState} {e : Nat × List Char}
    (h : (trimChars e.2).isEmpty = true) : parseStep st e = st := by
  rw [parseStep, if_pos h]

theorem parseStep_top {st : ParseState} {e : Nat × List Char}
    (h : (trimChars e.2).isEmpty = false) :
    (parseStep st e).top = mkNode e.1 e.2 := by
  rw [parseStep, if_neg (by simp [h])]

theorem parseStep_below {st : ParseState} {e : Nat × List Char}
    (h : (trimChars e.2).isEmpty = false) :
    (parseStep st e).below =
      (popAttach (mkNode e.1 e.2).depth st.top st.below).1 ::
      (popAttach (mkNode e.1 e.2).depth st.top st.below).2 := by
  rw [parseStep, if_neg (by simp [h])]

theorem parseStep_lmap {st : ParseState} {e : Nat × List Char}
    (h : (trimChars e.2).isEmpty = false) :
    (parseStep st e).lmap =
      (match (mkNode e.1 e.2).label with
       | some l => if l.isEmpty then st.lmap else lmapSet st.lmap l (mkNode e.1 e.2).id
       | none => st.lmap) := by
  rw [parseStep, if_neg (by simp [h])]

mutual

theorem allNodes_all_applyColor (p : RawNode → Bool)
    (hp : ∀ (inh : Option String) (m : RawNode), p (applyColor inh m) = p m) :
    ∀ (inh : Option String) (n : RawNode),
      (allNodes (applyColor inh n)).all p = (allNodes n).all p
  | inh, ⟨i, d, ln, tx, jp, lb, co, ec, rf, po, tg, ch⟩ => by
    show (applyColor inh ⟨i, d, ln, tx, jp, lb, co, ec, rf, po, tg, ch⟩ ::
          allNodesL (applyColorL
            (match co with | some c => some c | none => inh : Option String) ch)).all p =
         ((⟨i, d, ln, tx, jp, lb, co, ec, rf, po, tg, ch⟩ : RawNode) :: allNodesL ch).all p
    rw [List.all_cons, List.all_cons,
        hp inh ⟨i, d, ln, tx, jp, lb, co, ec, rf, po, tg, ch⟩,
        allNodesL_all_applyColorL p hp
          (match co with | some c => some c | none => inh : Option String) ch]

theorem allNodesL_all_applyColorL (p : RawNode → Bool)
    (hp : ∀ (inh : Option String) (m : RawNode), p (applyColor inh m) = p m) :
    ∀ (inh : Option String) (l : List RawNode),
      (allNodesL (applyColorL inh l)).all p = (allNodesL l).all p
  | _, [] => rfl
  | inh, c :: cs => by
    show ((allNodes (applyColor inh c) ++ allNodesL (applyColorL inh cs)).all p) =
         ((allNodes c ++ allNodesL cs).all p)
    rw [List.all_append, List.all_append, allNodes_all_applyColor p hp inh c,
        allNodesL_all_applyColorL p hp inh cs]

end

theorem textNE_applyColor (inh : Option String) (m : RawNode) :
    textNEB (applyColor inh m) = textNEB m := by
  rw [textNEB, textNEB, applyColor_text]

theorem mkNode_textNE (idx : Nat) (raw : List Char) : textNEB (mkNode idx raw) = true := by
  simp only [textNEB, mkNode]
  cases he : (trimChars (collapseWS (findRefs
      (extractDir true ("tags".data)
        (extractDir true ("jp".data)
          (extractDir true ("pos".data)
            (extractDir false ("label".data)
              (extractDir true ("color".data)
                (trimChars (getDepthL raw).2)).2).2).2).2).2).2)).isEmpty
  · rw [if_neg (by simp), isEmpty_mk, he]
    rfl
  · rw [if_pos rfl]
    rfl

theorem allNodes_mkNode (idx : Nat) (raw : List Char) :
    allNodes (mkNode idx raw) = [mkNode idx raw] := by
  rw [allNodes_eq]
  have h : (mkNode idx raw).children = [] := by
    simp only [mkNode]
  rw [h]
  rfl

theorem all_textNE_attach {p t : RawNode}
    (hpN : (allNodes p).all textNEB = true) (htN : (allNodes t).all textNEB = true) :
    (allNodes (attachChild p t)).all textNEB = true := by
  rw [List.all_eq_true] at *
  intro x hx
  rcases mem_allNodes_attach.mp hx with h | h | h
  · subst h
    have hh := hpN p (self_mem_allNodes p)
    rw [textNEB] at hh ⊢
    rw [attachChild_text]
    exact hh
  · exact hpN x (by rw [allNodes_eq]; exact List.mem_cons_of_mem _ h)
  · exact htN x h

theorem popAttach_textNE : ∀ (below : List RawNode) (top : RawNode) (d : Int),
    (∀ f ∈ top :: below, (allNodes f).all textNEB = true) →
    ∀ f ∈ (popAttach d top below).1 :: (popAttach d top below).2,
      (allNodes f).all textNEB = true
  | [], top, d, h => by
    rw [popAttach]
    exact h
  | parent :: rest, top, d, h => by
    by_cases hc : d ≤ top.depth
    · rw [popAttach, if_pos hc]
      refine popAttach_textNE rest (attachChild parent top) d ?_
      intro f hf
      rcases List.mem_cons.mp hf with h1 | h1
      · subst h1
        exact all_textNE_attach
          (h parent (List.mem_cons_of_mem _ (List.mem_cons_self _ _)))
          (h top (List.mem_cons_self _ _))
      · exact h f (List.mem_cons_of_mem _ (List.mem_cons_of_mem _ h1))
    · rw [popAttach, if_neg hc]
      exact h

theorem collapseAll_textNE : ∀ (below : List RawNode) (top : RawNode),
    (∀ f ∈ top :: below, (allNodes f).all textNEB = true) →
    (allNodes (collapseAll top below)).all textNEB = true
  | [], top, h => by
    rw [collapseAll]
    exact h top (List.mem_cons_self _ _)
  | parent :: rest, top, h => by
    rw [collapseAll]
    refine collapseAll_textNE rest (attachChild parent top) ?_
    intro f hf
    rcases List.mem_cons.mp hf with h1 | h1
    · subst h1
      exact all_textNE_attach
        (h parent (List.mem_cons_of_mem _ (List.mem_cons_self _ _)))
        (h top (List.mem_cons_self _ _))
    · exact h f (List.mem_cons_of_mem _ (List.mem_cons_of_mem _ h1))

theorem foldl_textNE : ∀ (es : List (Nat × List Char)) (st : ParseState),
    (∀ f ∈ st.top :: st.below, (allNodes f).all textNEB = true) →
    ∀ f ∈ (es.foldl parseStep st).top :: (es.foldl parseStep st).below,
      (allNodes f).all textNEB = true
  | [], st, h => h
  | e :: es, st, h => by
    rw [List.foldl_cons]
    refine foldl_textNE es (parseStep st e) ?_
    cases hb : (trimChars e.2).isEmpty
    · intro f hf
      rw [parseStep_top hb, parseStep_below hb] at hf
      rcases List.mem_cons.mp hf with h1 | h1
      · subst h1
        rw [allNodes_mkNode]
        simp only [List.all_cons, List.all_nil, Bool.and_true]
        exact mkNode_textNE e.1 e.2
      · exact popAttach_textNE st.below st.top (mkNode e.1 e.2).depth h f h1
    · rw [parseStep_blank hb]
      exact h

theorem parseText_fst (input : String) :
    (parseText input).1 =
      applyColor none
        (collapseAll
          (((splitNL (normNL input.data)).enum.foldl parseStep
            ⟨rootNode, [], []⟩).top)
          (((splitNL (normNL input.data)).enum.foldl parseStep
            ⟨rootNode, [], []⟩).below)) := rfl

theorem parseText_snd (input : String) :
    (parseText input).2 =
      ((splitNL (normNL input.data)).enum.foldl parseStep ⟨rootNode, [], []⟩).lmap := rfl

theorem initState_textNE :
    ∀ f ∈ (⟨rootNode, [], []⟩ : ParseState).top :: (⟨rootNode, [], []⟩ : ParseState).below,
      (allNodes f).all textNEB = true := by
  intro f hf
  have h1 : f = rootNode := by simpa using hf
  subst h1
  decide

/-- C9 counterexample: the claim collapses only runs of two or more
SPACES (modelled by `collapseSpacesClaimed`), so on the line
`a<TAB><TAB>b` it predicts the display text `a\t\tb`; the code's
`/\s{2,}/g` collapses any whitespace run, producing `a b`. -/
theorem c9_display_text_cex :
    ((parseText "a\t\tb").1.children.map RawNode.text) = ["a b"] ∧
    String.mk (trimChars (collapseSpacesClaimed ("a\t\tb".data))) = "a\t\tb" ∧
    ("a b" : String) ≠ "a\t\tb" :=
  ⟨rfl, rfl, by decide⟩

/-- C9 (amended): for every node produced by a parse, the display text
is the working text with all recognized directives removed, every run
of two or more WHITESPACE characters (spaces, tabs, etc., not only
spaces) replaced by a single space, and leading/trailing whitespace
trimmed; it is never the empty string — a line consisting only of
indentation and directives still produces a node whose display text is
the fixed placeholder `(untitled)`. -/
theorem c9_display_text :
    (∀ input : String, ∀ n ∈ allNodes (parseText input).1, n.text.isEmpty = false) ∧
    ((parseText "a\t\tb").1.children.map RawNode.text) = ["a b"] ∧
    ((parseText "a  b   c").1.children.map RawNode.text) = ["a b c"] ∧
    ((parseText "  \\pos\x7bnoun\x7d").1.children.map RawNode.text) = ["(untitled)"] ∧
    ((parseText "  \\pos\x7bnoun\x7d").1.children.map RawNode.pos) = [some "noun"] := by
  refine ⟨?_, rfl, rfl, rfl, rfl⟩
  intro input n hn
  have h1 := foldl_textNE ((splitNL (normNL input.data)).enum) ⟨rootNode, [], []⟩
    initState_textNE
  have h2 := collapseAll_textNE _ _ h1
  have h3 : (allNodes (parseText input).1).all textNEB = true := by
    rw [parseText_fst input, allNodes_all_applyColor textNEB textNE_applyColor]
    exact h2
  have h4 := List.all_eq_true.mp h3 n hn
  rw [textNEB] at h4
  simpa using h4

theorem c9_display_text_witness :
    ((parseText "a").1 ∈ allNodes (parseText "a").1) ∧
    ((parseText "a").1.text.isEmpty = false) :=
  ⟨by decide, c9_display_text.1 "a" _ (by decide)⟩

theorem mkNode_children (idx : Nat) (raw : List Char) : (mkNode idx raw).children = [] := by
  simp only [mkNode]

theorem mkNode_depth (idx : Nat) (raw : List Char) :
    (mkNode idx raw).depth = ((getDepthL raw).1 : Int) := by
  simp only [mkNode]

theorem mkNode_line (idx : Nat) (raw : List Char) :
    (mkNode idx raw).line = (idx : Int) := by
  simp only [mkNode]

theorem mkNode_id (idx : Nat) (raw : List Char) :
    (mkNode idx raw).id = "n_" ++ toString idx := by
  simp only [mkNode]

theorem mkNode_depth_nonneg (idx : Nat) (raw : List Char) :
    (0 : Int) ≤ (mkNode idx raw).depth := by
  rw [mkNode_depth]
  exact Int.natCast_nonneg _

theorem mkNode_childDeeper (idx : Nat) (raw : List Char) :
    childDeeperB (mkNode idx raw) = true := by
  rw [childDeeperB, mkNode_children]
  rfl

theorem all_childDeeper_attach {p t : RawNode}
    (hp : (allNodes p).all childDeeperB = true) (ht : (allNodes t).all childDeeperB = true)
    (hd : p.depth < t.depth) : (allNodes (attachChild p t)).all childDeeperB = true := by
  rw [List.all_eq_true] at *
  intro x hx
  rcases mem_allNodes_attach.mp hx with h | h | h
  · subst h
    have hself := hp p (self_mem_allNodes p)
    rw [childDeeperB] at hself ⊢
    rw [attachChild_children, attachChild_depth, List.all_append]
    rw [hself]
    simp [hd]
  · exact hp x (by rw [allNodes_eq]; exact List.mem_cons_of_mem _ h)
  · exact ht x h

mutual

theorem depthLe_allNodes : ∀ (r : RawNode),
    (allNodes r).all childDeeperB = true → ∀ n ∈ allNodes r, r.depth ≤ n.depth
  | ⟨i, d, ln, tx, jp, lb, co, ec, rf, po, tg, ch⟩ => fun h n hn => by
    rcases mem_allNodes_iff.mp hn with h1 | ⟨c, hc, hnc⟩
    · subst h1
      exact le_refl _
    · have hhead : childDeeperB ⟨i, d, ln, tx, jp, lb, co, ec, rf, po, tg, ch⟩ = true :=
        List.all_eq_true.mp h _ (self_mem_allNodes _)
      have hch : ∀ c' ∈ ch, (d : Int) < c'.depth := by
        intro c' hc'
        have h2 : ch.all (fun c' => decide (d < c'.depth)) = true := hhead
        simpa using List.all_eq_true.mp h2 c' hc'
      have htail : (allNodesL ch).all childDeeperB = true := by
        rw [List.all_eq_true]
        intro x hx
        refine List.all_eq_true.mp h x ?_
        rw [allNodes_eq]
        exact List.mem_cons_of_mem _ hx
      have hlt := depthLeL_allNodesL ch d hch htail n (mem_allNodesL.mpr ⟨c, hc, hnc⟩)
      exact le_of_lt hlt

theorem depthLeL_allNodesL : ∀ (l : List RawNode) (dp : Int),
    (∀ c ∈ l, dp < c.depth) → (allNodesL l).all childDeeperB = true →
    ∀ n ∈ allNodesL l, dp < n.depth
  | [], dp, h1, h2 => by simp [allNodesL]
  | c :: cs, dp, h1, h2 => fun n hn => by
    rw [allNodesL, List.all_append] at h2
    rw [allNodesL, List.mem_append] at hn
    rcases hn with h | h
    · have hc := depthLe_allNodes c ((Bool.and_eq_true _ _).mp h2).1 n h
      exact lt_of_lt_of_le (h1 c (List.mem_cons_self _ _)) hc
    · exact depthLeL_allNodesL cs dp (fun c' hc' => h1 c' (List.mem_cons_of_mem _ hc'))
        ((Bool.and_eq_true _ _).mp h2).2 n h

end

theorem depth0_mem_children {r : RawNode}
    (hall : (allNodes r).all childDeeperB = true) (hroot : r.depth = -1) :
    ∀ n ∈ allNodes r, n.depth = 0 → n ∈ r.children := by
  intro n hn h0
  rcases mem_allNodes_iff.mp hn with h1 | ⟨c, hc, hnc⟩
  · exfalso
    rw [h1, hroot] at h0
    exact absurd h0 (by decide)
  · rcases mem_allNodes_iff.mp hnc with h2 | ⟨c2, hc2, hnc2⟩
    · rw [h2]
      exact hc
    · exfalso
      have hcmem : c ∈ allNodes r := by
        rw [allNodes_eq]
        exact List.mem_cons_of_mem _ (mem_allNodesL.mpr ⟨c, hc, self_mem_allNodes c⟩)
      have hcd : (-1 : Int) < c.depth := by
        have hrootD : childDeeperB r = true := List.all_eq_true.mp hall r (self_mem_allNodes r)
        rw [childDeeperB] at hrootD
        have := List.all_eq_true.mp hrootD c hc
        rw [hroot] at this
        simpa using this
      have hcD : childDeeperB c = true := List.all_eq_true.mp hall c hcmem
      rw [childDeeperB] at hcD
      have hch : ∀ c' ∈ c.children, c.depth < c'.depth := by
        intro c' hc'
        simpa using List.all_eq_true.mp hcD c' hc'
      have htail : (allNodesL c.children).all childDeeperB = true := by
        rw [List.all_eq_true]
        intro x hx
        refine List.all_eq_true.mp hall x ?_
        rw [allNodes_eq]
        refine List.mem_cons_of_mem _ (mem_allNodesL.mpr ⟨c, hc, ?_⟩)
        rw [allNodes_eq]
        exact List.mem_cons_of_mem _ hx
      have := depthLeL_allNodesL c.children c.depth hch htail n
        (mem_allNodesL.mpr ⟨c2, hc2, hnc2⟩)
      omega

theorem framesOk_attach {top parent : RawNode} {rest : List RawNode}
    (h : FramesOk top (parent :: rest)) : FramesOk (attachChild parent top) rest := by
  obtain ⟨hall, hchain, hlast⟩ := h
  have hpt : parent.depth < top.depth := (List.chain'_cons.mp hchain).1
  refine ⟨?_, ?_, ?_⟩
  · intro f hf
    rcases List.mem_cons.mp hf with h1 | h1
    · subst h1
      exact all_childDeeper_attach
        (hall parent (List.mem_cons_of_mem _ (List.mem_cons_self _ _)))
        (hall top (List.mem_cons_self _ _)) hpt
    · exact hall f (List.mem_cons_of_mem _ (List.mem_cons_of_mem _ h1))
  · have h2 : List.Chain' (fun a b => b.depth < a.depth) (parent :: rest) :=
      (List.chain'_cons.mp hchain).2
    rw [List.chain'_cons'] at h2 ⊢
    obtain ⟨hh, ht⟩ := h2
    refine ⟨?_, ht⟩
    intro y hy
    rw [attachChild_depth]
    exact hh y hy
  · intro x hx
    cases rest with
    | nil =>
      have h3 : x = attachChild parent top := by
        have h4 : some (attachChild parent top) = some x := hx
        exact (Option.some_inj.mp h4).symm
      subst h3
      have h5 := hlast parent (by rw [List.getLast?_cons_cons]; exact rfl)
      exact ⟨by rw [attachChild_id]; exact h5.1,
             by rw [attachChild_depth]; exact h5.2.1,
             by rw [attachChild_line]; exact h5.2.2⟩
    | cons r rs =>
      apply hlast
      rw [List.getLast?_cons_cons]
      rw [List.getLast?_cons_cons] at hx
      exact hx

theorem popAttach_framesOk : ∀ (below : List RawNode) (top : RawNode) (d : Int),
    0 ≤ d → FramesOk top below →
    FramesOk (popAttach d top below).1 (popAttach d top below).2 ∧
    (popAttach d top below).1.depth < d
  | [], top, d, hd, h => by
    rw [popAttach]
    refine ⟨h, ?_⟩
    obtain ⟨-, h2, -⟩ := h.2.2 top rfl
    show top.depth < d
    omega
  | parent :: rest, top, d, hd, h => by
    by_cases hc : d ≤ top.depth
    · rw [popAttach, if_pos hc]
      exact popAttach_framesOk rest (attachChild parent top) d hd (framesOk_attach h)
    · rw [popAttach, if_neg hc]
      refine ⟨h, ?_⟩
      show top.depth < d
      omega

theorem parseStep_framesOk {st : ParseState} {e : Nat × List Char}
    (h : FramesOk st.top st.below) :
    FramesOk (parseStep st e).top (parseStep st e).below := by
  cases hb : (trimChars e.2).isEmpty
  · rw [parseStep_top hb, parseStep_below hb]
    obtain ⟨hfo, hlt⟩ :=
      popAttach_framesOk st.below st.top (mkNode e.1 e.2).depth
        (mkNode_depth_nonneg e.1 e.2) h
    refine ⟨?_, ?_, ?_⟩
    · intro f hf
      rcases List.mem_cons.mp hf with h1 | h1
      · subst h1
        rw [allNodes_mkNode]
        simp only [List.all_cons, List.all_nil, Bool.and_true]
        exact mkNode_childDeeper e.1 e.2
      · exact hfo.1 f h1
    · rw [List.chain'_cons]
      exact ⟨hlt, hfo.2.1⟩
    · intro x hx
      rw [List.getLast?_cons_cons] at hx
      exact hfo.2.2 x hx
  · rw [parseStep_blank hb]
    exact h

theorem foldl_framesOk : ∀ (es : List (Nat × List Char)) (st : ParseState),
    FramesOk st.top st.below →
    FramesOk ((es.foldl parseStep st)).top ((es.foldl parseStep st)).below
  | [], _, h => h
  | e :: es, st, h => by
    rw [List.foldl_cons]
    exact foldl_framesOk es (parseStep st e) (parseStep_framesOk h)

theorem collapseAll_framesOk : ∀ (below : List RawNode) (top : RawNode),
    FramesOk top below →
    (allNodes (collapseAll top below)).all childDeeperB = true ∧
    (collapseAll top below).id = "root" ∧ (collapseAll top below).depth = -1 ∧
    (collapseAll top below).line = -1
  | [], top, h => by
    rw [collapseAll]
    exact ⟨h.1 top (List.mem_cons_self _ _), h.2.2 top rfl⟩
  | parent :: rest, top, h => by
    rw [collapseAll]
    exact collapseAll_framesOk rest (attachChild parent top) (framesOk_attach h)

theorem applyColorL_all_depth (inh : Option String) (l : List RawNode) (dp : Int) :
    ((applyColorL inh l).all (fun c => decide (dp < c.depth))) =
      (l.all (fun c => decide (dp < c.depth))) := by
  induction l with
  | nil => rfl
  | cons c cs ih =>
    rw [applyColorL, List.all_cons, List.all_cons, applyColor_depth, ih]

theorem childDeeper_applyColor (inh : Option String) (m : RawNode) :
    childDeeperB (applyColor inh m) = childDeeperB m := by
  cases m with
  | mk i d ln tx jp lb co ec rf po tg ch =>
    show ((applyColorL (match co with | some c => some c | none => inh : Option String)
        ch).all (fun c => decide (d < c.depth))) = (ch.all (fun c => decide (d < c.depth)))
    rw [applyColorL_all_depth]

theorem initState_framesOk : FramesOk rootNode [] := by
  refine ⟨?_, List.chain'_singleton rootNode, ?_⟩
  · intro f hf
    have h1 : f = rootNode := by simpa using hf
    subst h1
    decide
  · intro x hx
    have h1 : x = rootNode := by
      have : some rootNode = some x := hx
      exact (Option.some_inj.mp this).symm
    subst h1
    exact ⟨rfl, rfl, rfl⟩

/-- C1: for every input string, `parseText` (total by construction in
this embedding — every translated scan and fold is structurally
recursive and defined on all inputs, matching the source's absence of
throw sites) returns a pair whose first component is the single
implicit root node with identity `"root"`, depth −1 and line −1, not
derived from any source line; and every parsed depth-0 node of the
returned tree appears among the root's children. -/
theorem c1_parse_total :
    ∀ input : String,
      (parseText input).1.id = "root" ∧ (parseText input).1.depth = -1 ∧
      (parseText input).1.line = -1 ∧
      (∀ n ∈ allNodes (parseText input).1, n.depth = 0 →
        n ∈ (parseText input).1.children) := by
  intro input
  have h1 := foldl_framesOk ((splitNL (normNL input.data)).enum) ⟨rootNode, [], []⟩
    initState_framesOk
  have h2 := collapseAll_framesOk _ _ h1
  have hall : (allNodes (parseText input).1).all childDeeperB = true := by
    rw [parseText_fst input, allNodes_all_applyColor childDeeperB childDeeper_applyColor]
    exact h2.1
  have hdepth : (parseText input).1.depth = -1 := by
    rw [parseText_fst input, applyColor_depth]
    exact h2.2.2.1
  refine ⟨?_, hdepth, ?_, ?_⟩
  · rw [parseText_fst input, applyColor_id]
    exact h2.2.1
  · rw [parseText_fst input, applyColor_line]
    exact h2.2.2.2
  · exact depth0_mem_children hall hdepth

theorem c1_parse_total_witness :
    ((parseText "a\n  b").1.children.getD 0 rootNode ∈ allNodes (parseText "a\n  b").1) ∧
    (((parseText "a\n  b").1.children.getD 0 rootNode).depth = 0) ∧
    ((parseText "a\n  b").1.children.getD 0 rootNode ∈ (parseText "a\n  b").1.children) :=
  ⟨by decide, by decide,
   (c1_parse_total "a\n  b").2.2.2 _ (by decide) (by decide)⟩

mutual

theorem allNodes_map_id_applyColor : ∀ (inh : Option String) (n : RawNode),
    (allNodes (applyColor inh n)).map RawNode.id = (allNodes n).map RawNode.id
  | inh, ⟨i, d, ln, tx, jp, lb, co, ec, rf, po, tg, ch⟩ => by
    show (applyColor inh ⟨i, d, ln, tx, jp, lb, co, ec, rf, po, tg, ch⟩ ::
          allNodesL (applyColorL
            (match co with | some c => some c | none => inh : Option String) ch)).map
            RawNode.id =
         ((⟨i, d, ln, tx, jp, lb, co, ec, rf, po, tg, ch⟩ : RawNode) ::
          allNodesL ch).map RawNode.id
    rw [List.map_cons, List.map_cons, applyColor_id,
        allNodesL_map_id_applyColorL
          (match co with | some c => some c | none => inh : Option String) ch]

theorem allNodesL_map_id_applyColorL : ∀ (inh : Option String) (l : List RawNode),
    (allNodesL (applyColorL inh l)).map RawNode.id = (allNodesL l).map RawNode.id
  | _, [] => rfl
  | inh, c :: cs => by
    show ((allNodes (applyColor inh c) ++ allNodesL (applyColorL inh cs)).map RawNode.id) =
         ((allNodes c ++ allNodesL cs).map RawNode.id)
    rw [List.map_append, List.map_append, allNodes_map_id_applyColor inh c,
        allNodesL_map_id_applyColorL inh cs]

end

theorem nodeIds_applyColor (inh : Option String) (n : RawNode) :
    nodeIds (applyColor inh n) = nodeIds n := by
  rw [nodeIds, nodeIds, allNodes_map_id_applyColor]

theorem mem_nodeIds {i : String} {r : RawNode} :
    i ∈ nodeIds r ↔ ∃ n ∈ allNodes r, n.id = i := by
  rw [nodeIds]
  exact List.mem_map

theorem nodeIds_attach {i : String} {p t : RawNode} :
    i ∈ nodeIds (attachChild p t) ↔ i ∈ nodeIds p ∨ i ∈ nodeIds t := by
  rw [mem_nodeIds, mem_nodeIds, mem_nodeIds]
  constructor
  · intro ⟨n, hn, he⟩
    rcases mem_allNodes_attach.mp hn with h | h | h
    · subst h
      left
      exact ⟨p, self_mem_allNodes p, by rw [← attachChild_id p t, he]⟩
    · left
      exact ⟨n, by rw [allNodes_eq]; exact List.mem_cons_of_mem _ h, he⟩
    · right
      exact ⟨n, h, he⟩
  · intro h
    rcases h with ⟨n, hn, he⟩ | ⟨n, hn, he⟩
    · rcases mem_allNodes_iff.mp hn with h1 | ⟨c, hc, hnc⟩
      · refine ⟨attachChild p t, self_mem_allNodes _, ?_⟩
        rw [attachChild_id, ← h1, he]
      · refine ⟨n, ?_, he⟩
        rw [mem_allNodes_attach]
        exact Or.inr (Or.inl (mem_allNodesL.mpr ⟨c, hc, hnc⟩))
    · refine ⟨n, ?_, he⟩
      rw [mem_allNodes_attach]
      exact Or.inr (Or.inr hn)

theorem popAttach_hasId : ∀ (below : List RawNode) (top : RawNode) (d : Int) (i : String),
    (∃ f ∈ top :: below, i ∈ nodeIds f) →
    ∃ f ∈ (popAttach d top below).1 :: (popAttach d top below).2, i ∈ nodeIds f
  | [], top, d, i, h => by
    rw [popAttach]
    exact h
  | parent :: rest, top, d, i, h => by
    by_cases hc : d ≤ top.depth
    · rw [popAttach, if_pos hc]
      refine popAttach_hasId rest (attachChild parent top) d i ?_
      obtain ⟨f, hf, hi⟩ := h
      rcases List.mem_cons.mp hf with h1 | h1
      · exact ⟨attachChild parent top, List.mem_cons_self _ _,
          nodeIds_attach.mpr (Or.inr (h1 ▸ hi))⟩
      · rcases List.mem_cons.mp h1 with h2 | h2
        · exact ⟨attachChild parent top, List.mem_cons_self _ _,
            nodeIds_attach.mpr (Or.inl (h2 ▸ hi))⟩
        · exact ⟨f, List.mem_cons_of_mem _ h2, hi⟩
    · rw [popAttach, if_neg hc]
      exact h

theorem collapseAll_hasId : ∀ (below : List RawNode) (top : RawNode) (i : String),
    (∃ f ∈ top :: below, i ∈ nodeIds f) → i ∈ nodeIds (collapseAll top below)
  | [], top, i, h => by
    rw [collapseAll]
    obtain ⟨f, hf, hi⟩ := h
    have h1 : f = top := by simpa using hf
    exact h1 ▸ hi
  | parent :: rest, top, i, h => by
    rw [collapseAll]
    refine collapseAll_hasId rest (attachChild parent top) i ?_
    obtain ⟨f, hf, hi⟩ := h
    rcases List.mem_cons.mp hf with h1 | h1
    · exact ⟨attachChild parent top, List.mem_cons_self _ _,
        nodeIds_attach.mpr (Or.inr (h1 ▸ hi))⟩
    · rcases List.mem_cons.mp h1 with h2 | h2
      · exact ⟨attachChild parent top, List.mem_cons_self _ _,
          nodeIds_attach.mpr (Or.inl (h2 ▸ hi))⟩
      · exact ⟨f, List.mem_cons_of_mem _ h2, hi⟩

theorem foldl_lmapIds : ∀ (es : List (Nat × List Char)) (st : ParseState),
    (∀ kv ∈ st.lmap, ∃ f ∈ st.top :: st.below, kv.2 ∈ nodeIds f) →
    ∀ kv ∈ (es.foldl parseStep st).lmap,
      ∃ f ∈ (es.foldl parseStep st).top :: (es.foldl parseStep st).below,
        kv.2 ∈ nodeIds f
  | [], st, h => h
  | e :: es, st, h => by
    rw [List.foldl_cons]
    refine foldl_lmapIds es (parseStep st e) ?_
    cases hb : (trimChars e.2).isEmpty
    · intro kv hkv
      rw [parseStep_lmap hb] at hkv
      rw [parseStep_top hb, parseStep_below hb]
      have hold : kv ∈ st.lmap →
          ∃ f ∈ mkNode e.1 e.2 ::
            (popAttach (mkNode e.1 e.2).depth st.top st.below).1 ::
            (popAttach (mkNode e.1 e.2).depth st.top st.below).2, kv.2 ∈ nodeIds f := by
        intro hmem
        obtain ⟨f, hf, hi⟩ :=
          popAttach_hasId st.below st.top (mkNode e.1 e.2).depth kv.2 (h kv hmem)
        exact ⟨f, List.mem_cons_of_mem _ hf, hi⟩
      rcases hl : (mkNode e.1 e.2).label with _ | l
      · rw [hl] at hkv
        exact hold hkv
      · rw [hl] at hkv
        simp only [] at hkv
        by_cases he : l.isEmpty = true
        · rw [if_pos he] at hkv
          exact hold hkv
        · rw [if_neg he] at hkv
          rcases List.mem_cons.mp hkv with h1 | h1
          · subst h1
            refine ⟨mkNode e.1 e.2, List.mem_cons_self _ _, ?_⟩
            exact mem_nodeIds.mpr ⟨mkNode e.1 e.2, self_mem_allNodes _, rfl⟩
          · exact hold h1
    · rw [parseStep_blank hb]
      exact h

theorem lmapGet_mem {m : List (String × String)} {k v : String}
    (h : lmapGet m k = some v) : ∃ kv ∈ m, kv.2 = v := by
  rw [lmapGet] at h
  rcases hf : m.find? (fun kv => kv.1 = k) with _ | kv
  · rw [hf] at h
    exact Option.noConfusion h
  · rw [hf] at h
    refine ⟨kv, List.mem_of_find?_eq_some hf, ?_⟩
    simpa using h

theorem parseText_lmap_ids {input : String} {k v : String}
    (h : lmapGet (parseText input).2 k = some v) : v ∈ nodeIds (parseText input).1 := by
  obtain ⟨kv, hkv, he⟩ := lmapGet_mem h
  rw [parseText_snd] at hkv
  have h1 := foldl_lmapIds ((splitNL (normNL input.data)).enum) ⟨rootNode, [], []⟩
    (by intro kv h0; exact absurd h0 (List.not_mem_nil kv)) kv hkv
  rw [parseText_fst, nodeIds_applyColor]
  subst he
  exact collapseAll_hasId _ _ kv.2 h1

/-- C8: cross-reference resolution produces a link `(a, b)` for exactly
those `(node, label)` pairs where the node lists the label in its
`refs`, the label map sends the label to an identity `b`, and `b`
differs from the node's own identity; references to unknown labels or
to the node's own label yield no association (and no error). -/
theorem c8_cross_links :
    ∀ (input : String) (a b : String),
      (a, b) ∈ crossLinks (parseText input).1 (parseText input).2 ↔
        ∃ n ∈ allNodes (parseText input).1, ∃ r ∈ n.refs,
          a = n.id ∧ lmapGet (parseText input).2 r = some b ∧ b ≠ a := by
  intro input a b
  rw [crossLinks, List.mem_flatMap]
  constructor
  · intro ⟨n, hn, hmem⟩
    rw [List.mem_filterMap] at hmem
    obtain ⟨r, hr, hfr⟩ := hmem
    rcases hg : lmapGet (parseText input).2 r with _ | tid
    · rw [hg] at hfr
      exact absurd hfr (by simp)
    · rw [hg] at hfr
      simp only [] at hfr
      by_cases hin : tid ∈ nodeIds (parseText input).1
      · rw [if_pos hin] at hfr
        by_cases heq : tid = n.id
        · rw [if_pos heq] at hfr
          exact absurd hfr (by simp)
        · rw [if_neg heq] at hfr
          have hab : (n.id, tid) = (a, b) := by
            injection hfr
          have ha : a = n.id := (Prod.mk.injEq _ _ _ _ |>.mp hab).1.symm
          have hb : b = tid := (Prod.mk.injEq _ _ _ _ |>.mp hab).2.symm
          refine ⟨n, hn, r, hr, ha, ?_, ?_⟩
          · rw [hg, hb]
          · rw [ha, hb]
            exact heq
      · rw [if_neg hin] at hfr
        exact absurd hfr (by simp)
  · intro ⟨n, hn, r, hr, ha, hg, hne⟩
    refine ⟨n, hn, ?_⟩
    rw [List.mem_filterMap]
    refine ⟨r, hr, ?_⟩
    rw [hg]
    have hin : b ∈ nodeIds (parseText input).1 := parseText_lmap_ids hg
    simp only []
    rw [if_pos hin, if_neg (by rw [← ha]; exact hne), ha]

theorem c8_cross_links_witness :
    ("n_1", "n_0") ∈
      crossLinks (parseText "node \\label\x7bapple\x7d\nuse \\ref\x7bapple\x7d here").1
        (parseText "node \\label\x7bapple\x7d\nuse \\ref\x7bapple\x7d here").2 :=
  (c8_cross_links "node \\label\x7bapple\x7d\nuse \\ref\x7bapple\x7d here" "n_1" "n_0").mpr
    ⟨(parseText "node \\label\x7bapple\x7d\nuse \\ref\x7bapple\x7d here").1.children.getD 1
        rootNode,
      by decide, "apple", by decide, by decide, by decide, by decide⟩

theorem getLast?_none_iff {α : Type} (l : List α) : l.getLast? = none ↔ l = [] := by
  cases l with
  | nil => simp
  | cons c t =>
    rw [List.getLast?_eq_getLast (c :: t) (by simp)]
    simp

theorem getLast?_cons_ne {α : Type} (c : α) {l : List α} (h : l ≠ []) :
    (c :: l).getLast? = l.getLast? := by
  cases l with
  | nil => exact absurd rfl h
  | cons b bs => rw [List.getLast?_cons_cons]

theorem dropWhile_append_single {α : Type} (p : α → Bool) (l : List α) (a : α)
    (h : p a = false) : (l ++ [a]).dropWhile p = l.dropWhile p ++ [a] := by
  induction l with
  | nil => simp [List.dropWhile, h]
  | cons c t ih =>
    by_cases hc : p c = true
    · rw [List.cons_append, List.dropWhile_cons_of_pos hc, List.dropWhile_cons_of_pos hc, ih]
    · rw [List.cons_append, List.dropWhile_cons_of_neg (by simp [hc]),
        List.dropWhile_cons_of_neg (by simp [hc]), List.cons_append]

theorem find?_reverse_eq {α : Type} (p : α → Bool) (l : List α) :
    l.reverse.find? p = (l.filter p).getLast? := by
  induction l using List.reverseRecOn with
  | nil => rfl
  | append_singleton l a ih =>
    rw [List.reverse_append, List.filter_append]
    have h1 : ([a] : List α).reverse = [a] := rfl
    rw [h1]
    cases hpa : p a
    · have h2 : ([a] : List α).find? p = none := by simp [List.find?, hpa]
      have h3 : ([a] : List α).filter p = [] := by simp [List.filter, hpa]
      rw [List.find?_append, h2, ih, h3, List.append_nil]
      simp
    · have h2 : ([a] : List α).find? p = some a := by simp [List.find?, hpa]
      have h3 : ([a] : List α).filter p = [a] := by simp [List.filter, hpa]
      rw [List.find?_append, h2, h3, List.getLast?_concat]
      rfl

theorem chainLt_append (t : RawNode) : ∀ l : List RawNode,
    chainLtLine l = true → (∀ x ∈ l, x.line < t.line) → chainLtLine (l ++ [t]) = true
  | [], _, _ => rfl
  | [a], _, h2 => by
    show (decide (a.line < t.line) && chainLtLine [t]) = true
    have h3 : chainLtLine [t] = true := rfl
    rw [h3, Bool.and_true]
    simpa using h2 a (List.mem_singleton.mpr rfl)
  | a :: b :: r, h1, h2 => by
    show (decide (a.line < b.line) && chainLtLine (b :: (r ++ [t]))) = true
    have h3 : (decide (a.line < b.line) && chainLtLine (b :: r)) = true := h1
    have h4 := (Bool.and_eq_true _ _).mp h3
    rw [h4.1, Bool.true_and]
    exact chainLt_append t (b :: r) h4.2
      (fun x hx => h2 x (List.mem_cons_of_mem _ hx))

theorem activePath_sublist : ∀ l : List RawNode, (activePath l).Sublist l := by
  intro l
  induction l with
  | nil => simp [activePath]
  | cons c t ih =>
    rw [activePath]
    by_cases hc : t.all (fun m => decide (c.depth < m.depth)) = true
    · rw [if_pos hc]
      exact ih.cons₂ c
    · rw [if_neg hc]
      exact ih.cons c

theorem activePath_append_single (n : RawNode) : ∀ C : List RawNode,
    activePath (C ++ [n]) =
      (activePath C).filter (fun m => decide (m.depth < n.depth)) ++ [n] := by
  intro C
  induction C with
  | nil => simp [activePath]
  | cons c t ih =>
    rw [List.cons_append, activePath, activePath, List.all_append]
    have h1 : ([n] : List RawNode).all (fun m => decide (c.depth < m.depth)) =
        decide (c.depth < n.depth) := by
      simp
    rw [h1]
    cases ht : t.all (fun m => decide (c.depth < m.depth)) <;>
      cases hc : decide (c.depth < n.depth)
    · rw [Bool.false_and, if_neg (by simp), if_neg (by simp [ht]), ih]
    · rw [Bool.false_and, if_neg (by simp), if_neg (by simp [ht]), ih]
    · simp [ih, List.filter_cons, hc]
    · simp [ih, List.filter_cons, hc]

theorem activePath_pairwise : ∀ l : List RawNode,
    List.Pairwise (fun a b => a.depth < b.depth) (activePath l) := by
  intro l
  induction l with
  | nil => exact List.Pairwise.nil
  | cons c t ih =>
    rw [activePath]
    by_cases hc : t.all (fun m => decide (c.depth < m.depth)) = true
    · rw [if_pos hc]
      refine List.Pairwise.cons ?_ ih
      intro y hy
      have hyt : y ∈ t := (activePath_sublist t).mem hy
      simpa using List.all_eq_true.mp hc y hyt
    · rw [if_neg hc]
      exact ih

theorem lastLower (d : Int) : ∀ l : List RawNode,
    (l.filter (fun m => decide (m.depth < d))).getLast? =
      ((activePath l).filter (fun m => decide (m.depth < d))).getLast? := by
  intro l
  induction l with
  | nil => rfl
  | cons c t ih =>
    rw [List.filter_cons, activePath]
    by_cases hc : t.all (fun m => decide (c.depth < m.depth)) = true
    · rw [if_pos hc, List.filter_cons]
      by_cases hpc : decide (c.depth < d) = true
      · rw [if_pos hpc, if_pos hpc]
        cases hg : (t.filter (fun m => decide (m.depth < d))).getLast? with
        | none =>
          have h6 := (getLast?_none_iff _).mp hg
          have h7 : ((activePath t).filter (fun m => decide (m.depth < d))) = [] :=
            (getLast?_none_iff _).mp (ih.symm.trans hg)
          rw [h6, h7]
        | some x =>
          have h8 : t.filter (fun m => decide (m.depth < d)) ≠ [] := by
            intro h0
            rw [h0] at hg
            exact Option.noConfusion hg
          have h9 : (activePath t).filter (fun m => decide (m.depth < d)) ≠ [] := by
            intro h0
            have h10 : ((activePath t).filter (fun m => decide (m.depth < d))).getLast? =
                none := by rw [h0]; rfl
            exact Option.noConfusion ((ih.trans h10).symm.trans hg)
          rw [getLast?_cons_ne c h8, getLast?_cons_ne c h9, ih]
      · rw [if_neg hpc, if_neg hpc]
        exact ih
    · rw [if_neg hc]
      by_cases hpc : decide (c.depth < d) = true
      · rw [if_pos hpc]
        have hex : ∃ m ∈ t, ¬ (c.depth < m.depth) := by
          by_contra hall
          push_neg at hall
          exact hc (List.all_eq_true.mpr (fun m hm => by simpa using hall m hm))
        obtain ⟨m, hm, hmd⟩ := hex
        have hmf : m ∈ t.filter (fun m => decide (m.depth < d)) := by
          refine List.mem_filter.mpr ⟨hm, ?_⟩
          have h5 : c.depth < d := by simpa using hpc
          simp only [decide_eq_true_eq]
          omega
        have h8 : t.filter (fun m => decide (m.depth < d)) ≠ [] := by
          intro h0
          rw [h0] at hmf
          exact List.not_mem_nil m hmf
        rw [getLast?_cons_ne c h8, ih]
      · rw [if_neg hpc]
        exact ih

theorem strip_depth (n : RawNode) : (strip n).depth = n.depth := rfl

theorem strip_id (n : RawNode) : (strip n).id = n.id := rfl

theorem strip_line (n : RawNode) : (strip n).line = n.line := rfl

theorem strip_attach (p t : RawNode) : strip (attachChild p t) = strip p := rfl

theorem strip_eq_self {n : RawNode} (h : n.children = []) : strip n = n := by
  cases n with
  | mk i d ln tx jp lb co ec rf po tg ch =>
    have h2 : ch = [] := h
    show RawNode.mk i d ln tx jp lb co ec rf po tg [] =
      RawNode.mk i d ln tx jp lb co ec rf po tg ch
    rw [h2]

theorem coeAppend {α : Type} (l₁ l₂ : List α) :
    ((l₁ ++ l₂ : List α) : Multiset α) = ↑l₁ + ↑l₂ := rfl

theorem treeEdges_eq (n : RawNode) :
    treeEdges n = n.children.map (fun c => (n.id, c.id)) ++ treeEdgesL n.children := by
  cases n
  rfl

theorem treeEdgesL_append : ∀ l₁ l₂ : List RawNode,
    treeEdgesL (l₁ ++ l₂) = treeEdgesL l₁ ++ treeEdgesL l₂ := by
  intro l₁ l₂
  induction l₁ with
  | nil => rfl
  | cons c cs ih => rw [List.cons_append, treeEdgesL, treeEdgesL, ih, List.append_assoc]

theorem treeEdgesL_singleton (t : RawNode) : treeEdgesL [t] = treeEdges t := by
  rw [treeEdgesL, treeEdgesL, List.append_nil]

theorem treeEdges_attach (p t : RawNode) :
    List.Perm (treeEdges (attachChild p t))
      ((p.id, t.id) :: (treeEdges p ++ treeEdges t)) := by
  rw [treeEdges_eq, attachChild_children, attachChild_id, List.map_append,
    treeEdgesL_append, treeEdgesL_singleton, treeEdges_eq p]
  have hm : ([t] : List RawNode).map (fun c => (p.id, c.id)) = [(p.id, t.id)] := rfl
  rw [hm]
  rw [← Multiset.coe_eq_coe]
  simp only [coeAppend, ← Multiset.cons_coe, ← Multiset.singleton_add, Multiset.coe_nil]
  abel

theorem adjPairs_cons_cons (a b : RawNode) (rest : List RawNode) :
    adjPairs (a :: b :: rest) = (b.id, a.id) :: adjPairs (b :: rest) := rfl

theorem adjPairs_head {x y : RawNode} (h : x.id = y.id) (rest : List RawNode) :
    adjPairs (x :: rest) = adjPairs (y :: rest) := by
  cases rest with
  | nil => rfl
  | cons r rs => rw [adjPairs_cons_cons, adjPairs_cons_cons, h]

theorem stackEdges_attach (top parent : RawNode) (rest : List RawNode) :
    List.Perm (stackEdges (attachChild parent top :: rest))
      (stackEdges (top :: parent :: rest)) := by
  rw [stackEdges, stackEdges, List.flatMap_cons, List.flatMap_cons, List.flatMap_cons,
    adjPairs_cons_cons, adjPairs_head (attachChild_id parent top) rest]
  have hp := treeEdges_attach parent top
  rw [← Multiset.coe_eq_coe] at *
  simp only [coeAppend, ← Multiset.cons_coe, ← Multiset.singleton_add,
    Multiset.coe_nil] at *
  rw [hp]
  abel

theorem attach_stackLinesOk {b : Nat} {top parent : RawNode} {rest : List RawNode}
    (h : StackLinesOk b (top :: parent :: rest)) :
    StackLinesOk b (attachChild parent top :: rest) := by
  obtain ⟨hlines, hsorted, hadj⟩ := h
  have hmp : parent ∈ top :: parent :: rest :=
    List.mem_cons_of_mem _ (List.mem_cons_self _ _)
  have hmt : top ∈ top :: parent :: rest := List.mem_cons_self _ _
  refine ⟨?_, ?_, ?_⟩
  · intro f hf x hx
    rcases List.mem_cons.mp hf with h1 | h1
    · subst h1
      rcases mem_allNodes_attach.mp hx with h2 | h2 | h2
      · subst h2
        rw [attachChild_line]
        exact hlines parent hmp parent (self_mem_allNodes parent)
      · refine hlines parent hmp x ?_
        rw [allNodes_eq]
        exact List.mem_cons_of_mem _ h2
      · exact hlines top hmt x h2
    · exact hlines f (List.mem_cons_of_mem _ (List.mem_cons_of_mem _ h1)) x hx
  · intro f hf
    rcases List.mem_cons.mp hf with h1 | h1
    · subst h1
      rw [List.all_eq_true]
      intro x hx
      rcases mem_allNodes_attach.mp hx with h2 | h2 | h2
      · subst h2
        show chainLtLine (parent.children ++ [top]) = true
        refine chainLt_append top parent.children ?_ ?_
        · exact List.all_eq_true.mp (hsorted parent hmp) parent (self_mem_allNodes parent)
        · intro x hxc
          exact hadj.1 x (mem_allNodesL.mpr ⟨x, hxc, self_mem_allNodes x⟩)
      · refine List.all_eq_true.mp (hsorted parent hmp) x ?_
        rw [allNodes_eq]
        exact List.mem_cons_of_mem _ h2
      · exact List.all_eq_true.mp (hsorted top hmt) x h2
    · exact hsorted f (List.mem_cons_of_mem _ (List.mem_cons_of_mem _ h1))
  · cases rest with
    | nil => trivial
    | cons r rs =>
      refine ⟨?_, hadj.2.2⟩
      intro x hx
      rw [attachChild_line]
      exact hadj.2.1 x hx

theorem popAttach_master : ∀ (below : List RawNode) (top : RawNode) (d : Int) (b : Nat),
    StackLinesOk b (top :: below) →
    (∀ x, (top :: below).getLast? = some x → x.depth < d) →
    StackLinesOk b ((popAttach d top below).1 :: (popAttach d top below).2) ∧
    ((popAttach d top below).1 :: (popAttach d top below).2).map strip =
      ((top :: below).map strip).dropWhile (fun f => decide (d ≤ f.depth)) ∧
    List.Perm (stackEdges ((popAttach d top below).1 :: (popAttach d top below).2))
      (stackEdges (top :: below))
  | [], top, d, b, hok, hlast => by
    rw [popAttach]
    refine ⟨hok, ?_, List.Perm.refl _⟩
    have h1 : top.depth < d := hlast top rfl
    rw [List.map_cons, List.map_nil,
      List.dropWhile_cons_of_neg (by simp [strip_depth]; omega)]
  | parent :: rest, top, d, b, hok, hlast => by
    by_cases hc : d ≤ top.depth
    · rw [popAttach, if_pos hc]
      have hlast' : ∀ x, (attachChild parent top :: rest).getLast? = some x →
          x.depth < d := by
        intro x hx
        cases rest with
        | nil =>
          have h3 : x = attachChild parent top := by
            have h4 : some (attachChild parent top) = some x := hx
            exact (Option.some_inj.mp h4).symm
          subst h3
          rw [attachChild_depth]
          exact hlast parent (by rw [List.getLast?_cons_cons]; exact rfl)
        | cons r rs =>
          refine hlast x ?_
          rw [List.getLast?_cons_cons]
          rw [List.getLast?_cons_cons] at hx
          exact hx
      obtain ⟨h1, h2, h3⟩ :=
        popAttach_master rest (attachChild parent top) d b
          (attach_stackLinesOk hok) hlast'
      refine ⟨h1, ?_, ?_⟩
      · rw [h2]
        have hcond : decide (d ≤ (strip top).depth) = true := by
          simp only [strip_depth, decide_eq_true_eq]
          exact hc
        conv_rhs => rw [List.map_cons, List.dropWhile_cons]
        rw [if_pos hcond, List.map_cons, strip_attach, List.map_cons]
      · exact h3.trans (stackEdges_attach top parent rest)
    · rw [popAttach, if_neg hc]
      refine ⟨hok, ?_, List.Perm.refl _⟩
      rw [List.map_cons, List.dropWhile_cons_of_neg (by simp [strip_depth]; omega)]

theorem map_getLast? {α β : Type} (f : α → β) : ∀ l : List α,
    (l.map f).getLast? = (l.getLast?).map f
  | [] => rfl
  | [a] => rfl
  | a :: b :: t => by
    have ih := map_getLast? f (b :: t)
    rw [List.map_cons, List.map_cons, List.getLast?_cons_cons, ← List.map_cons, ih,
      List.getLast?_cons_cons]

theorem dropWhile_filter_sorted (d : Int) : ∀ l : List RawNode,
    List.Pairwise (fun a c => c.depth < a.depth) l →
    l.dropWhile (fun f => decide (d ≤ f.depth)) = l.filter (fun f => decide (f.depth < d))
  | [], _ => rfl
  | a :: t, h => by
    obtain ⟨ha, ht⟩ := List.pairwise_cons.mp h
    by_cases hc : d ≤ a.depth
    · rw [List.dropWhile_cons, if_pos (by simp only [decide_eq_true_eq]; exact hc),
        List.filter_cons, if_neg (by simp only [decide_eq_true_eq]; omega)]
      exact dropWhile_filter_sorted d t ht
    · rw [List.dropWhile_cons, if_neg (by simp only [decide_eq_true_eq]; exact hc),
        List.filter_cons, if_pos (by simp only [decide_eq_true_eq]; omega)]
      congr 1
      symm
      rw [List.filter_eq_self]
      intro x hx
      have hxa := ha x hx
      simp only [decide_eq_true_eq]
      omega

theorem specEdges_append : ∀ (l pre : List RawNode) (n : RawNode),
    specEdges pre (l ++ [n]) = specEdges pre l ++ [(specParentId (pre ++ l) n.depth, n.id)]
  | [], pre, n => by
    rw [List.nil_append, List.append_nil, specEdges, specEdges, specEdges]
    rfl
  | m :: rest, pre, n => by
    rw [List.cons_append, specEdges, specEdges, specEdges_append rest (pre ++ [m]) n,
      List.cons_append]
    have h1 : pre ++ [m] ++ rest = pre ++ m :: rest := by
      rw [List.append_assoc, List.singleton_append]
    rw [h1]

theorem specParentId_strip (C : List RawNode) (d : Int) (t : RawNode) (rest : List RawNode)
    (h : (t :: rest).map strip =
      ((activePath C).filter (fun m => decide (m.depth < d))).reverse ++ [rootNode]) :
    t.id = specParentId C d := by
  rw [specParentId, find?_reverse_eq, lastLower d C]
  cases hrev : ((activePath C).filter (fun m => decide (m.depth < d))).reverse with
  | nil =>
    have hfil : (activePath C).filter (fun m => decide (m.depth < d)) = [] := by
      have h2 := congrArg List.reverse hrev
      simpa using h2
    rw [hfil]
    rw [hrev] at h
    have hh : strip t = rootNode := by
      have h2 := congrArg List.head? h
      simpa using h2
    show t.id = "root"
    rw [← strip_id, hh]
    rfl
  | cons a as =>
    rw [hrev] at h
    have hh : strip t = a := by
      have h2 := congrArg List.head? h
      simpa using h2
    have hg : ((activePath C).filter (fun m => decide (m.depth < d))).getLast? = some a := by
      rw [← List.head?_reverse, hrev]
      rfl
    have hid := congrArg RawNode.id hh
    rw [strip_id] at hid
    rw [hg]
    exact hid

theorem parseStep_pinv {b : Nat} {C : List RawNode} {st : ParseState} {e : Nat × List Char}
    (inv : PInv b C st) (hbe : b ≤ e.1) (hnb : (trimChars e.2).isEmpty = false) :
    PInv (e.1 + 1) (C ++ [mkNode e.1 e.2]) (parseStep st e) := by
  obtain ⟨hC, hstrip, hedges, hlok⟩ := inv
  have hd0 : (0 : Int) ≤ (mkNode e.1 e.2).depth := mkNode_depth_nonneg e.1 e.2
  have hlast : ∀ x, (st.top :: st.below).getLast? = some x →
      x.depth < (mkNode e.1 e.2).depth := by
    intro x hx
    have h1 := congrArg List.getLast? hstrip
    rw [map_getLast?, hx, List.getLast?_concat] at h1
    have h2 : strip x = rootNode := by simpa using h1
    have h3 : x.depth = -1 := by
      rw [← strip_depth, h2]
      rfl
    omega
  obtain ⟨hlok', hstrip', hperm'⟩ :=
    popAttach_master st.below st.top (mkNode e.1 e.2).depth b hlok hlast
  have hpairRev : List.Pairwise (fun a c => c.depth < a.depth) (activePath C).reverse := by
    rw [List.pairwise_reverse]
    exact activePath_pairwise C
  have hstrip2 : ((popAttach (mkNode e.1 e.2).depth st.top st.below).1 ::
      (popAttach (mkNode e.1 e.2).depth st.top st.below).2).map strip =
      ((activePath C).filter (fun m => decide (m.depth < (mkNode e.1 e.2).depth))).reverse ++
        [rootNode] := by
    rw [hstrip', hstrip,
      dropWhile_append_single _ _ _ (by
        have h4 : rootNode.depth = -1 := rfl
        simp only [decide_eq_false_iff_not]
        omega),
      dropWhile_filter_sorted (mkNode e.1 e.2).depth _ hpairRev, List.filter_reverse]
  have hpid : (popAttach (mkNode e.1 e.2).depth st.top st.below).1.id =
      specParentId C (mkNode e.1 e.2).depth :=
    specParentId_strip C (mkNode e.1 e.2).depth _ _ hstrip2
  refine ⟨?_, ?_, ?_, ?_⟩
  · intro n hn
    rcases List.mem_append.mp hn with h1 | h1
    · exact hC n h1
    · rw [List.mem_singleton.mp h1]
      exact mkNode_children e.1 e.2
  · rw [parseStep_top hnb, parseStep_below hnb, List.map_cons, hstrip2,
      strip_eq_self (mkNode_children e.1 e.2), activePath_append_single (mkNode e.1 e.2) C,
      List.reverse_append]
    rfl
  · rw [parseStep_top hnb, parseStep_below hnb, specEdges_append C [] (mkNode e.1 e.2),
      List.nil_append]
    have hten : treeEdges (mkNode e.1 e.2) = [] := by
      rw [treeEdges_eq, mkNode_children]
      rfl
    rw [stackEdges, List.flatMap_cons, hten, List.nil_append, adjPairs_cons_cons]
    have hcomb := hperm'.trans hedges
    rw [stackEdges] at hcomb
    rw [← Multiset.coe_eq_coe] at *
    simp only [coeAppend, ← Multiset.cons_coe, ← Multiset.singleton_add,
      Multiset.coe_nil] at *
    rw [hpid] at *
    rw [← hcomb]
    abel
  · refine ⟨?_, ?_, ?_⟩
    · intro f hf x hx
      rw [parseStep_top hnb, parseStep_below hnb] at hf
      rcases List.mem_cons.mp hf with h1 | h1
      · subst h1
        rw [allNodes_mkNode] at hx
        have h2 : x = mkNode e.1 e.2 := by simpa using hx
        subst h2
        rw [mkNode_line]
        exact_mod_cast Nat.lt_succ_self e.1
      · have h5 := hlok'.hlines f h1 x hx
        have h6 : (b : Int) ≤ ((e.1 + 1 : Nat) : Int) := by exact_mod_cast Nat.le_succ_of_le hbe
        omega
    · intro f hf
      rw [parseStep_top hnb, parseStep_below hnb] at hf
      rcases List.mem_cons.mp hf with h1 | h1
      · subst h1
        rw [allNodes_mkNode]
        simp only [List.all_cons, List.all_nil, Bool.and_true]
        show chainLtLine (mkNode e.1 e.2).children = true
        rw [mkNode_children]
        rfl
      · exact hlok'.hsorted f h1
    · rw [parseStep_top hnb, parseStep_below hnb]
      refine ⟨?_, hlok'.hadj⟩
      intro x hx
      have hxm : x ∈ allNodes (popAttach (mkNode e.1 e.2).depth st.top st.below).1 := by
        rw [allNodes_eq]
        exact List.mem_cons_of_mem _ hx
      have h5 := hlok'.hlines _ (List.mem_cons_self _ _) x hxm
      rw [mkNode_line]
      have h6 : (b : Int) ≤ (e.1 : Int) := by exact_mod_cast hbe
      omega

theorem applyColor_children (inh : Option String) (n : RawNode) :
    (applyColor inh n).children =
      applyColorL (match n.color with | some c => some c | none => inh : Option String)
        n.children := by
  cases n
  rfl

theorem chainLtLine_applyColorL (inh : Option String) : ∀ l : List RawNode,
    chainLtLine (applyColorL inh l) = chainLtLine l
  | [] => rfl
  | [_] => rfl
  | a :: c :: r => by
    show ((decide ((applyColor inh a).line < (applyColor inh c).line)) &&
        chainLtLine (applyColor inh c :: applyColorL inh r)) =
      ((decide (a.line < c.line)) && chainLtLine (c :: r))
    rw [applyColor_line, applyColor_line]
    have h2 : applyColor inh c :: applyColorL inh r = applyColorL inh (c :: r) := rfl
    rw [h2, chainLtLine_applyColorL inh (c :: r)]

theorem lineChainB_applyColor (inh : Option String) (m : RawNode) :
    lineChainB (applyColor inh m) = lineChainB m := by
  show chainLtLine (applyColor inh m).children = chainLtLine m.children
  rw [applyColor_children, chainLtLine_applyColorL]

mutual

theorem treeEdges_applyColor : ∀ (inh : Option String) (n : RawNode),
    treeEdges (applyColor inh n) = treeEdges n
  | inh, ⟨i, d, ln, tx, jp, lb, co, ec, rf, po, tg, ch⟩ => by
    show (applyColorL (match co with | some c => some c | none => inh : Option String) ch).map
          (fun c => (i, c.id)) ++
        treeEdgesL (applyColorL
          (match co with | some c => some c | none => inh : Option String) ch) =
      ch.map (fun c => (i, c.id)) ++ treeEdgesL ch
    rw [treeEdgesL_applyColorL]
    congr 1
    have h1 : ∀ l : List RawNode,
        l.map (fun c => (i, c.id)) = (l.map (fun c => c.id)).map (fun s => (i, s)) := by
      intro l
      rw [List.map_map]
      rfl
    rw [h1, h1, applyColorL_map_id]

theorem treeEdgesL_applyColorL : ∀ (inh : Option String) (l : List RawNode),
    treeEdgesL (applyColorL inh l) = treeEdgesL l
  | _, [] => rfl
  | inh, c :: cs => by
    show treeEdges (applyColor inh c) ++ treeEdgesL (applyColorL inh cs) =
      treeEdges c ++ treeEdgesL cs
    rw [treeEdges_applyColor, treeEdgesL_applyColorL]

end

theorem pinv_mono {b b' : Nat} {C : List RawNode} {st : ParseState}
    (hinv : PInv b C st) (hbb : b ≤ b') : PInv b' C st := by
  obtain ⟨hC, hstrip, hedges, hlok⟩ := hinv
  refine ⟨hC, hstrip, hedges, ⟨?_, hlok.hsorted, hlok.hadj⟩⟩
  intro f hf x hx
  have h1 := hlok.hlines f hf x hx
  have h2 : (b : Int) ≤ (b' : Int) := by exact_mod_cast hbb
  omega

theorem idxOk_enumFrom : ∀ (l : List (List Char)) (b : Nat), idxOk b (List.enumFrom b l)
  | [], _ => trivial
  | x :: xs, b => by
    rw [List.enumFrom_cons]
    exact ⟨Nat.le_refl b, idxOk_enumFrom xs (b + 1)⟩

theorem idxOk_enum (l : List (List Char)) : idxOk 0 l.enum :=
  idxOk_enumFrom l 0

theorem pinv_init : PInv 0 [] ⟨rootNode, [], []⟩ := by
  refine ⟨?_, ?_, ?_, ⟨?_, ?_, ?_⟩⟩
  · intro n hn
    cases hn
  · rfl
  · decide
  · decide
  · decide
  · trivial

theorem foldl_pinv : ∀ (es : List (Nat × List Char)) (b : Nat) (C : List RawNode)
    (st : ParseState), PInv b C st → idxOk b es →
    ∃ b', PInv b' (C ++ es.filterMap lineNode) (es.foldl parseStep st)
  | [], b, C, st, hinv, _ => ⟨b, by simpa using hinv⟩
  | e :: es, b, C, st, hinv, hidx => by
    obtain ⟨hbe, hidx'⟩ := hidx
    rw [List.foldl_cons, List.filterMap_cons]
    by_cases hb : (trimChars e.2).isEmpty = true
    · have hle : lineNode e = none := by
        rw [lineNode, if_pos hb]
      rw [hle, parseStep_blank hb]
      exact foldl_pinv es (e.1 + 1) C st (pinv_mono hinv (by omega)) hidx'
    · have hnb : (trimChars e.2).isEmpty = false := by
        cases h : (trimChars e.2).isEmpty
        · rfl
        · exact absurd h hb
      have hle : lineNode e = some (mkNode e.1 e.2) := by
        rw [lineNode, if_neg hb]
      rw [hle]
      have hstep := parseStep_pinv hinv hbe hnb
      have hassoc : C ++ mkNode e.1 e.2 :: es.filterMap lineNode =
          (C ++ [mkNode e.1 e.2]) ++ es.filterMap lineNode := by
        simp
      rw [hassoc]
      exact foldl_pinv es (e.1 + 1) (C ++ [mkNode e.1 e.2]) (parseStep st e) hstep hidx'

theorem collapseAll_stackLinesOk : ∀ (below : List RawNode) (top : RawNode) (b : Nat),
    StackLinesOk b (top :: below) → StackLinesOk b [collapseAll top below]
  | [], _, _, h => h
  | parent :: rest, top, b, h =>
    collapseAll_stackLinesOk rest (attachChild parent top) b (attach_stackLinesOk h)

theorem collapseAll_stackEdges : ∀ (below : List RawNode) (top : RawNode),
    List.Perm (treeEdges (collapseAll top below)) (stackEdges (top :: below))
  | [], top => by
    have h1 : stackEdges [top] = treeEdges top := by
      simp [stackEdges, adjPairs]
    show List.Perm (treeEdges top) (stackEdges [top])
    rw [h1]
  | parent :: rest, top =>
    (collapseAll_stackEdges rest (attachChild parent top)).trans
      (stackEdges_attach top parent rest)

/-- Claim C3: for every input, the finished tree realises the stack
discipline.  The parent/child edge multiset is exactly the one the
specified rule assigns: each created node (one per non-blank line, in
source order) is a child of the most recently created node of strictly
smaller depth — the implicit root when there is none — so depth jumps
of more than one level simply attach to the nearest lower-depth
ancestor.  Children lists are strictly ordered by source line, so each
new node is appended as the LAST child of its parent.  And a blank or
whitespace-only line produces no node and leaves the parser state
(stack and label map) unchanged. -/
theorem c3_stack_discipline (input : String) :
    List.Perm (treeEdges (parseText input).1) (specEdges [] (createdNodes input)) ∧
    (allNodes (parseText input).1).all lineChainB = true ∧
    (∀ (st : ParseState) (e : Nat × List Char),
      (trimChars e.2).isEmpty = true → parseStep st e = st) := by
  obtain ⟨b', hinv⟩ := foldl_pinv ((splitNL (normNL input.data)).enum) 0 []
    ⟨rootNode, [], []⟩ pinv_init (idxOk_enum _)
  refine ⟨?_, ?_, fun st e hb => parseStep_blank hb⟩
  · have h1 : (parseText input).1 = applyColor none
        (collapseAll
          (((splitNL (normNL input.data)).enum.foldl parseStep ⟨rootNode, [], []⟩)).top
          (((splitNL (normNL input.data)).enum.foldl parseStep
            ⟨rootNode, [], []⟩)).below) := rfl
    rw [h1, treeEdges_applyColor]
    have h2 := collapseAll_stackEdges
      (((splitNL (normNL input.data)).enum.foldl parseStep ⟨rootNode, [], []⟩)).below
      (((splitNL (normNL input.data)).enum.foldl parseStep ⟨rootNode, [], []⟩)).top
    have h3 := hinv.hedges
    rw [List.nil_append] at h3
    exact h2.trans h3
  · have h1 : (parseText input).1 = applyColor none
        (collapseAll
          (((splitNL (normNL input.data)).enum.foldl parseStep ⟨rootNode, [], []⟩)).top
          (((splitNL (normNL input.data)).enum.foldl parseStep
            ⟨rootNode, [], []⟩)).below) := rfl
    rw [h1, allNodes_all_applyColor lineChainB lineChainB_applyColor none]
    have h5 := (collapseAll_stackLinesOk _ _ b' hinv.hlok).hsorted
    exact h5 _ (List.mem_singleton_self _)

/-- Concrete instance of claim C3 on an input exercising a pop, a
depth jump and a blank line. -/
theorem c3_stack_discipline_witness :
    List.Perm (treeEdges (parseText "A\n    B\n  C\n\n  D").1)
      (specEdges [] (createdNodes "A\n    B\n  C\n\n  D")) :=
  (c3_stack_discipline "A\n    B\n  C\n\n  D").1
